import Mathlib

/-!
# Character segmentation of a text line (cut.h, main.cpp)

Shallow embedding of the segmentation engine: vertical-projection cutting (`cut`),
height resolution (`findHeightForPatch`, `findHeights`), line statistics
(`findMeanHeightWidthForRegion`), recursive re-cutting (`doReCut`, `reCut`), merging
of neighbouring patches (`merge`, with `validChinesePatch` and `isSimilar`), the
classification pass (`findPatchType`) and the serialised record (`saveRegionToFile`).

Conventions of the embedding.
* C++ `int` is `Int`; `/` on `int` is `Int.tdiv` (truncation toward zero). Values are taken
  in the range where no signed overflow occurs.
* `float` and `double` values are modelled exactly by `Flt`: every operation rounds its
  exact result to 24 (`float`) or 53 (`double`) significant bits, nearest, ties to even (a
  `float` expression is evaluated in `float`). The exponent is unbounded: conversions,
  quotients and products of `int` values stay in the normal range of both formats.
* `cv::Mat` is `Mat`: a size and a sample function; a sample is read as `uchar`.
* `vector<Patch>` is `List Patch`; indexed loops are folds over `List.range`, loops that
  assign their own index carry it in the state.
* The constructor `Patch(s, e, pt)` leaves `top` and `bottom` unassigned; the values those
  fields then hold are the parameter `u` of every function that uses this constructor.
-/

namespace CvOCR

/-! ## Floating point -/

/-- Value of a binary floating-point datum: a finite dyadic `m * 2 ^ e`, an infinity
(`neg = true` for the negative one) or a NaN. -/
inductive Flt where
  | fin (m : Int) (e : Int)
  | inf (neg : Bool)
  | nan
  deriving Repr, DecidableEq

namespace Flt

/-- Number of binary digits of `n`, with `fuel` an upper bound on that number. -/
def bitsAux : Nat → Nat → Nat
  | 0, _ => 0
  | fuel + 1, n => if n = 0 then 0 else bitsAux fuel (n / 2) + 1

/-- Number of binary digits of `n`. -/
def bits (n : Nat) : Nat := bitsAux n n

/-- Rounding of the positive rational `n / d * 2 ^ e` (`0 < n`, `0 < d`) to `p` significant
bits, to nearest, ties to even: the result `(q, f)` stands for `q * 2 ^ f`. -/
def roundPos (p : Nat) (n d : Nat) (e : Int) : Nat × Int :=
  let k0 : Int := (p : Int) + (bits d : Int) - (bits n : Int)
  let q0 := (n * 2 ^ k0.toNat) / (d * 2 ^ (-k0).toNat)
  let k : Int := if 2 ^ p ≤ q0 then k0 - 1 else k0
  let num := n * 2 ^ k.toNat
  let den := d * 2 ^ (-k).toNat
  let q := num / den
  let r := num % den
  let q1 := if den < 2 * r ∨ (2 * r = den ∧ q % 2 = 1) then q + 1 else q
  (q1, e - k)

/-- Signed version of `roundPos` for the rational `(a / b) * 2 ^ e`, `a ≠ 0`, `b ≠ 0`. -/
def roundQ (p : Nat) (a b : Int) (e : Int) : Flt :=
  let r := roundPos p a.natAbs b.natAbs e
  if decide (a < 0) != decide (b < 0) then fin (-(r.1 : Int)) r.2 else fin (r.1 : Int) r.2

/-- Conversion of an `int` to a floating-point type with `p` significant bits. -/
def ofInt (p : Nat) (x : Int) : Flt :=
  if x = 0 then fin 0 0 else roundQ p x 1 0

/-- Division in a floating-point type with `p` significant bits. A zero divisor is the
positive zero, the only zero an `int` converts to. -/
def div (p : Nat) : Flt → Flt → Flt
  | nan, _ => nan
  | _, nan => nan
  | inf _, inf _ => nan
  | inf s, fin m _ => inf (s != decide (m < 0))
  | fin _ _, inf _ => fin 0 0
  | fin m1 e1, fin m2 e2 =>
    if m2 = 0 then (if m1 = 0 then nan else inf (decide (m1 < 0)))
    else if m1 = 0 then fin 0 0
    else roundQ p m1 m2 (e1 - e2)

/-- Multiplication in a floating-point type with `p` significant bits. -/
def mul (p : Nat) : Flt → Flt → Flt
  | nan, _ => nan
  | _, nan => nan
  | inf s1, inf s2 => inf (s1 != s2)
  | inf s, fin m _ => if m = 0 then nan else inf (s != decide (m < 0))
  | fin m _, inf s => if m = 0 then nan else inf (s != decide (m < 0))
  | fin m1 e1, fin m2 e2 =>
    if m1 * m2 = 0 then fin 0 0 else roundQ p (m1 * m2) 1 (e1 + e2)

/-- Comparison `a < b`; false when an operand is a NaN. -/
def lt : Flt → Flt → Bool
  | nan, _ => false
  | _, nan => false
  | inf s1, inf s2 => s1 && !s2
  | inf s, fin _ _ => s
  | fin _ _, inf s => !s
  | fin m1 e1, fin m2 e2 =>
    decide (m1 * 2 ^ (e1 - min e1 e2).toNat < m2 * 2 ^ (e2 - min e1 e2).toNat)

/-- Comparison `a <= b`; false when an operand is a NaN. -/
def le : Flt → Flt → Bool
  | nan, _ => false
  | _, nan => false
  | inf s1, inf s2 => s1 || !s2
  | inf s, fin _ _ => s
  | fin _ _, inf s => !s
  | fin m1 e1, fin m2 e2 =>
    decide (m1 * 2 ^ (e1 - min e1 e2).toNat ≤ m2 * 2 ^ (e2 - min e1 e2).toNat)

/-- Comparison `a > b`. -/
def gt (a b : Flt) : Bool := lt b a

/-- Comparison `a >= b`. -/
def ge (a b : Flt) : Bool := le b a

/-- The `double` literal `0.83`. -/
def d0_83 : Flt := fin 7475975381435023 (-53)

/-- The `double` literal `0.8`. -/
def d0_8 : Flt := fin 3602879701896397 (-52)

/-- The `double` literal `0.9`. -/
def d0_9 : Flt := fin 8106479329266893 (-53)

/-- The `double` literal `0.5`. -/
def d0_5 : Flt := fin 1 (-1)

end Flt

/-! ## Constants and data model -/

/-- Least distance between patches, used when merging parts of a character. -/
def MIN_MARGIN : Int := 6

/-- Blank border of a saved character image. -/
def PIC_PADDING : Int := 7

/-- Least width of a patch that is not punctuation. -/
def MIN_PATCH_WIDTH : Int := 15

/-- Least height of a patch that is not punctuation. -/
def MIN_PATCH_HEIGHT : Int := 15

/-- The `const float MIN_SIMILIRITY = 0.8`: the literal rounded to `float`. -/
def MIN_SIMILIRITY : Flt := Flt.fin 13421773 (-24)

/-- Declared in cut.h, read by no function. -/
def MIN_CUT_PIXES : Int := 4

/-- The enum `PatchType`. -/
inductive PatchType where
  | NOTYPE
  | HANZI
  | ENG
  | PUNC
  | NOISE
  deriving Repr, DecidableEq

/-- Integer value of the enumerator. -/
def PatchType.code : PatchType → Int
  | NOTYPE => 0
  | HANZI => 1
  | ENG => 2
  | PUNC => 3
  | NOISE => 4

/-- The struct `Patch`; the field `end` is `end_` here. -/
structure Patch where
  start : Int
  end_ : Int
  top : Int
  bottom : Int
  ptype : PatchType
  deriving Repr, DecidableEq

instance : Inhabited Patch := ⟨⟨0, 0, 0, 0, PatchType.NOTYPE⟩⟩

/-- The constructor `Patch(s, e, pt)`: `top` and `bottom` are not assigned and hold `u`. -/
def Patch.mk3 (u : Int × Int) (s e : Int) (pt : PatchType) : Patch :=
  ⟨s, e, u.1, u.2, pt⟩

/-- A single-channel 8-bit `cv::Mat`. -/
structure Mat where
  rows : Nat
  cols : Nat
  data : Int → Int → Nat

/-- The read `img.at<uchar>(i, j)`. -/
def Mat.px (img : Mat) (i j : Int) : Int := ((img.data i j % 256 : Nat) : Int)

/-- The summand `1 - img.at<uchar>(i, j) / 255`: 0 on a sample 255, 1 on any other. -/
def Mat.ink (img : Mat) (i j : Int) : Int := 1 - Int.tdiv (img.px i j) 255

/-- The struct `Region`: the bitmap of one text line, the mean height and width of its
patches, and the patches. -/
structure Region where
  img : Mat
  meanHeight : Int
  meanWidth : Int
  patches : List Patch

/-- The integers `s, s + 1, ..., e - 1`: the values of `j` in `for (j = s; j < e; ++ j)`. -/
def intRange (s e : Int) : List Int :=
  (List.range (e - s).toNat).map (fun (k : Nat) => s + (k : Int))

/-! ## Height resolution and statistics -/

/-- The inner loop of `findHeightForPatch`: `whiteCount` of row `i` over columns `[s, e)`. -/
def rowWhiteCount (img : Mat) (i : Int) (s e : Int) : Int :=
  (intRange s e).foldl (fun whiteCount (j : Int) => whiteCount + img.ink i j) 0

/-- The function `findHeightForPatch`: `top` becomes the first row, scanning down, with ink
in the columns `[start, end)`, `bottom` the first such row scanning up; a field stays as it
is when no row has ink; then `bottom` is raised by one if `bottom <= top`. -/
def findHeightForPatch (img : Mat) (patch : Patch) : Patch :=
  let totalHeight := img.rows
  let start := patch.start
  let end_ := patch.end_
  let patch1 : Patch :=
    match (List.range totalHeight).find?
        (fun (i : Nat) => decide (rowWhiteCount img (i : Int) start end_ ≥ 1)) with
    | some i => { patch with top := (i : Int) }
    | none => patch
  let patch2 : Patch :=
    match (List.range totalHeight).reverse.find?
        (fun (i : Nat) => decide (rowWhiteCount img (i : Int) start end_ ≥ 1)) with
    | some i => { patch1 with bottom := (i : Int) }
    | none => patch1
  if patch2.bottom ≤ patch2.top then { patch2 with bottom := patch2.bottom + 1 } else patch2

/-- The test of `findMeanHeightWidthForRegion` under which a patch is left out. -/
def skipForMean (rows : Nat) (width height : Int) : Bool :=
  (decide (width ≤ MIN_PATCH_WIDTH) && decide (height ≤ MIN_PATCH_HEIGHT))
  || (decide (width ≤ MIN_PATCH_WIDTH)
      && Flt.ge (Flt.ofInt 53 height) (Flt.mul 53 Flt.d0_9 (Flt.ofInt 53 rows)))
  || decide (width ≤ Int.tdiv ((rows : Int) * 3) 5)

/-- One iteration of the loop of `findMeanHeightWidthForRegion` on `(count, sum, sumW)`. -/
def meanStep (rows : Nat) (st : Int × Int × Int) (p : Patch) : Int × Int × Int :=
  let width := p.end_ - p.start
  let height := p.bottom - p.top
  if skipForMean rows width height then st
  else (st.1 + 1, st.2.1 + height, st.2.2 + width)

/-- The function `findMeanHeightWidthForRegion`. -/
def findMeanHeightWidthForRegion (region : Region) : Region :=
  let st := region.patches.foldl (meanStep region.img.rows) (0, 0, 0)
  let count := st.1
  let sum := st.2.1
  let sumW := st.2.2
  if count = 0 then
    { region with meanHeight := (region.img.rows : Int) - 4,
                  meanWidth := (region.img.cols : Int) - 4 }
  else
    { region with meanHeight := Int.tdiv sum count, meanWidth := Int.tdiv sumW count }

/-- The function `findHeights`: `findHeightForPatch` on every patch, then the means. -/
def findHeights (region : Region) : Region :=
  findMeanHeightWidthForRegion
    { region with patches := region.patches.map (findHeightForPatch region.img) }

/-! ## Projection cut -/

/-- The array `whiteCount` of `cut`: number of ink samples of column `i`. -/
def colWhiteCount (img : Mat) (i : Int) : Int :=
  (List.range img.rows).foldl (fun whiteCount (j : Nat) => whiteCount + img.ink (j : Int) i) 0

/-- One iteration of the second loop of `cut` on `(start, end, patches)`. -/
def cutStep (u : Int × Int) (whiteCount : Int → Int) (st : Int × Int × List Patch) (n : Nat) :
    Int × Int × List Patch :=
  let i : Int := n
  let start := if whiteCount i = 0 ∧ whiteCount (i + 1) > 0 then i + 1 else st.1
  if whiteCount i > 0 ∧ whiteCount (i + 1) = 0 then
    let end_ := i
    if end_ - start > 2 then (start, end_, st.2.2 ++ [Patch.mk3 u start end_ PatchType.NOTYPE])
    else (start, end_, st.2.2)
  else (start, st.2.1, st.2.2)

/-- The function `cut`. The fields `meanHeight` and `meanWidth` of the fresh `Region` are
unassigned until `findHeights` assigns both; they are 0 here until then. -/
def cut (u : Int × Int) (gray : Mat) : Region :=
  let st := (List.range (gray.cols - 1)).foldl (cutStep u (colWhiteCount gray)) (0, 0, [])
  findHeights { img := gray, meanHeight := 0, meanWidth := 0, patches := st.2.2 }

/-! ## Re-cut -/

/-- The array `whiteCount` of `doReCut`, of size `width + 5` and zero-initialised: entry `k`
is the ink count of column `patch.start + k` for `0 ≤ k < width`, the later entries stay 0. -/
def reCutWhiteCount (img : Mat) (patch : Patch) (k : Int) : Int :=
  if 0 ≤ k ∧ k < patch.end_ - patch.start then colWhiteCount img (patch.start + k) else 0

/-- One iteration of the scan of `doReCut` on `(s, v)`; `recur` is the recursive call
`doReCut(region, ·, minCutPixes + 1)`, which returns `none` when it does not return. -/
def doReCutStep (u : Int × Int) (region : Region) (patch : Patch) (minCutPixes : Int)
    (recur : Patch → Option (List Patch)) (st : Option (Int × List Patch)) (n : Nat) :
    Option (Int × List Patch) :=
  match st with
  | none => none
  | some (s0, v) =>
    let whiteCount := reCutWhiteCount region.img patch
    let i : Int := n
    let s := if whiteCount i < minCutPixes ∧ whiteCount (i + 1) ≥ minCutPixes then i else s0
    if whiteCount i ≥ minCutPixes ∧ whiteCount (i + 1) < minCutPixes then
      let e := i + 1
      if e - s > Int.tdiv (region.meanHeight * 5) 4 then
        match recur (Patch.mk3 u (s + patch.start) (e + patch.start) PatchType.NOTYPE) with
        | none => none
        | some tmp => some (s, v ++ tmp)
      else if e - s > 2 then
        some (s, v ++ [Patch.mk3 u (s + patch.start) (e + patch.start) PatchType.NOTYPE])
      else some (s, v)
    else some (s, v)

/-- The function `doReCut` run with a bound `depth` on the number of nested calls: `none`
when the bound is reached before the call returns. -/
def doReCutFuel (u : Int × Int) : Nat → Region → Patch → Int → Option (List Patch)
  | 0, _, _, _ => none
  | depth + 1, region, patch, minCutPixes =>
    if minCutPixes ≥ 10 then some [patch]
    else
      let width := patch.end_ - patch.start
      ((List.range width.toNat).foldl
        (doReCutStep u region patch minCutPixes
          (fun sub => doReCutFuel u depth region sub (minCutPixes + 1)))
        (some (0, []))).map Prod.snd

/-- The function `doReCut`: the nesting of its calls never exceeds `10 - minCutPixes + 1`
(`doReCutFuel_total`), so the default of `getD` is never taken. -/
def doReCut (u : Int × Int) (region : Region) (patch : Patch) (minCutPixes : Int) : List Patch :=
  (doReCutFuel u ((10 - minCutPixes).toNat + 1) region patch minCutPixes).getD []

/-- The function `reCut`. -/
def reCut (u : Int × Int) (region : Region) : Region :=
  let newPatches := region.patches.foldl
    (fun newPatches patch =>
      if patch.end_ - patch.start > Int.tdiv (region.meanHeight * 4) 3 then
        newPatches ++ doReCut u region patch 1
      else newPatches ++ [patch])
    []
  findHeights { region with patches := newPatches }

/-! ## Shape tests and merge -/

/-- The function `validChinesePatch`: the three ratios are `float` quotients, compared with
the `double` literals `0.83` and `0.8`. -/
def validChinesePatch (patch : Patch) (standard : Int) : Bool :=
  let width := Flt.ofInt 24 (patch.end_ - patch.start)
  let height := Flt.ofInt 24 (patch.bottom - patch.top)
  let std := Flt.ofInt 24 standard
  let ratio := if width.lt height then Flt.div 24 width height else Flt.div 24 height width
  let ratiow := if width.lt std then Flt.div 24 width std else Flt.div 24 std width
  let ratioh := if height.lt std then Flt.div 24 height std else Flt.div 24 std height
  ratio.ge Flt.d0_83 && ratioh.ge Flt.d0_8 && ratiow.ge Flt.d0_8

/-- The function `isSimilar`: the two ratios are `float` quotients, compared with the `float`
constant `MIN_SIMILIRITY`; `abs` is on `int`. -/
def isSimilar (patch1 patch2 : Patch) : Bool :=
  let width1 := Flt.ofInt 24 (patch1.end_ - patch1.start)
  let width2 := Flt.ofInt 24 (patch2.end_ - patch2.start)
  let height1 := Flt.ofInt 24 (patch1.bottom - patch1.top)
  let height2 := Flt.ofInt 24 (patch2.bottom - patch2.top)
  let ratio1 := if width1.lt width2 then Flt.div 24 width1 width2 else Flt.div 24 width2 width1
  let ratio2 :=
    if height1.lt height2 then Flt.div 24 height1 height2 else Flt.div 24 height2 height1
  if ratio1.lt MIN_SIMILIRITY || ratio2.lt MIN_SIMILIRITY then false
  else if decide (((patch1.top - patch2.top).natAbs : Int) > MIN_MARGIN)
      || decide (((patch1.bottom - patch2.bottom).natAbs : Int) > MIN_MARGIN) then false
  else true

/-- The value of `canMerge` in the body of the loop of `merge` at index `i`, after its five
tests. The assignment `patch1.ptype = HANZI` of the second test is `markHanzi` in `mergeStep`:
no test reads `ptype`. -/
def canMerge (region : Region) (i : Nat) : Bool :=
  let len := region.patches.length
  let patch1 := region.patches.getD i default
  let patch2 := region.patches.getD (i + 1) default
  let tmpPatch : Patch :=
    ⟨patch1.start, patch2.end_, min patch1.top patch2.top, max patch1.bottom patch2.bottom,
      PatchType.HANZI⟩
  let canMerge := true
  let canMerge := if patch2.start - patch1.end_ ≥ MIN_MARGIN then false else canMerge
  let canMerge := if validChinesePatch patch1 region.meanHeight then false else canMerge
  let canMerge := if !validChinesePatch tmpPatch region.meanHeight then false else canMerge
  let canMerge :=
    if isSimilar patch1 patch2
        && decide (patch1.bottom - patch1.top < Int.tdiv (region.meanHeight * 9) 10)
        && decide (patch2.bottom - patch2.top < Int.tdiv (region.meanHeight * 9) 10)
    then false else canMerge
  let canMerge :=
    if decide (patch2.end_ - patch2.start < MIN_PATCH_WIDTH)
        && decide (patch2.bottom - patch2.top < MIN_PATCH_HEIGHT)
        && decide (patch2.top > Int.tdiv (region.img.rows : Int) 2)
        && decide (i + 2 ≠ len)
        && decide ((region.patches.getD (i + 2) default).start - patch2.end_
            > Int.tdiv region.meanHeight 3)
    then false else canMerge
  canMerge

/-- The statement `if (validChinesePatch(p, standard)) p.ptype = HANZI;` of `merge`. -/
def markHanzi (p : Patch) (standard : Int) : Patch :=
  if validChinesePatch p standard then { p with ptype := PatchType.HANZI } else p

/-- The body of the loop of `merge` at index `i` (with `i < len - 1`), followed by the
`++ i` of the loop header: the new index and the new `newPatches`. -/
def mergeStep (region : Region) (i : Nat) (newPatches : List Patch) : Nat × List Patch :=
  let len := region.patches.length
  let patch1 := region.patches.getD i default
  let patch2 := region.patches.getD (i + 1) default
  let tmpPatch : Patch :=
    ⟨patch1.start, patch2.end_, min patch1.top patch2.top, max patch1.bottom patch2.bottom,
      PatchType.HANZI⟩
  let patch3 := region.patches.getD (i + 2) default
  let bigPatch3 : Patch :=
    ⟨patch1.start, patch3.end_, min tmpPatch.top patch3.top, max tmpPatch.bottom patch3.bottom,
      PatchType.HANZI⟩
  if i + 2 < len ∧ validChinesePatch bigPatch3 region.meanHeight = true then
    (i + 2 + 1, newPatches ++ [bigPatch3])
  else
    let patch4 := region.patches.getD (i + 3) default
    let bigPatch4 : Patch :=
      ⟨patch1.start, patch4.end_, min tmpPatch.top patch4.top,
        max tmpPatch.bottom patch4.bottom, PatchType.HANZI⟩
    if i + 3 < len ∧ validChinesePatch bigPatch4 region.meanHeight = true then
      (i + 3 + 1, newPatches ++ [bigPatch4])
    else if canMerge region i = false then
      (i + 1, newPatches ++ [markHanzi patch1 region.meanHeight])
    else (i + 1 + 1, newPatches ++ [{ tmpPatch with ptype := PatchType.HANZI }])

/-- The loop `for (i = 0; i < len - 1; ++ i)` of `merge`, run for at most `fuel` iterations
from the state `(i, newPatches)`. -/
def mergeLoop (region : Region) : Nat → Nat → List Patch → Nat × List Patch
  | 0, i, newPatches => (i, newPatches)
  | fuel + 1, i, newPatches =>
    if (i : Int) < (region.patches.length : Int) - 1 then
      mergeLoop region fuel (mergeStep region i newPatches).1 (mergeStep region i newPatches).2
    else (i, newPatches)

/-- The function `merge`. Every iteration advances `i`, so `len` iterations reach the end
of the loop (`mergeLoop_exit`). -/
def merge (region : Region) : Region :=
  let len := region.patches.length
  let st := mergeLoop region len 0 []
  let i := st.1
  let newPatches :=
    if (i : Int) = (len : Int) - 1 then
      st.2 ++ [markHanzi (region.patches.getD i default) region.meanHeight]
    else st.2
  { region with patches := newPatches }

/-! ## Classification pass and serialisation -/

/-- The `float` ratio of `findPatchType` of a size `x` against `standard`: the smaller of
the two divided by the larger, `(x < standard) ? x / standard : standard / x`. -/
def ratioAgainst (x standard : Int) : Flt :=
  if (Flt.ofInt 24 x).lt (Flt.ofInt 24 standard) then
    Flt.div 24 (Flt.ofInt 24 x) (Flt.ofInt 24 standard)
  else Flt.div 24 (Flt.ofInt 24 standard) (Flt.ofInt 24 x)

/-- One iteration of the loop of `findPatchType` at index `i`, on the patches of the region:
the iteration reads the patches as the earlier iterations left them. -/
def findPatchTypeStep (standardH standardW : Int) (patches : List Patch) (i : Nat) :
    List Patch :=
  let patch1 := patches.getD (i - 1) default
  let patch2 := patches.getD i default
  let patch3 := patches.getD (i + 1) default
  if patch2.ptype = PatchType.HANZI then patches
  else
    let ratiow := ratioAgainst (patch2.end_ - patch2.start) standardW
    let ratioh := ratioAgainst (patch2.bottom - patch2.top) standardH
    if (ratiow.gt Flt.d0_8 || (ratioh.gt Flt.d0_8 && ratiow.gt Flt.d0_5))
        && (decide (patch1.ptype = PatchType.HANZI) || decide (patch3.ptype = PatchType.HANZI))
    then patches.set i { patch2 with ptype := PatchType.HANZI }
    else patches

/-- The function `findPatchType`: the loop `for (i = 1; i < len - 1; ++ i)`. The parameter
`index` is not read. -/
def findPatchType (region : Region) (_index : Int) : Region :=
  let standardH := region.meanHeight
  let standardW := region.meanWidth
  let len := region.patches.length
  { region with patches :=
      (List.range' 1 (len - 2)).foldl (findPatchTypeStep standardH standardW) region.patches }

/-- The function `saveRegionToFile`, on the text of the file: `file` is the text the file
holds when it is opened in append mode, the result the text it holds when it is closed.
An `int` and an enumerator are written in decimal, `endl` writes a newline. -/
def saveRegionToFile (region : Region) (index : Int) (file : String) : String :=
  let out := file
  let out := out ++ toString index ++ "\n"
  let out := region.patches.foldl
    (fun (out : String) (patch : Patch) =>
      let out := out ++ toString patch.start ++ " " ++ toString patch.top ++ " "
      let out := out ++ toString patch.end_ ++ " " ++ toString patch.bottom ++ " "
      out ++ toString patch.ptype.code ++ "\n")
    out
  out ++ "\n"

/-! ## Predicates of the statements and concrete lines -/

/-- The line of the serialised record for one box, as the specification words it:
`<start> <top> <end> <bottom> <typeCode>` with single spaces, then a newline. -/
def boxLine (p : Patch) : String :=
  toString p.start ++ " " ++ toString p.top ++ " " ++ toString p.end_ ++ " "
    ++ toString p.bottom ++ " " ++ toString p.ptype.code ++ "\n"

/-- The lines of the boxes of a record, one after the other, in order. -/
def boxLines : List Patch → String
  | [] => ""
  | p :: ps => boxLine p ++ boxLines ps

/-- The shape test of `findPatchType` on a box: its width ratio against `standardW` is above
0.8, or its height ratio against `standardH` is above 0.8 and its width ratio above 0.5. -/
def shapeTest (p : Patch) (standardH standardW : Int) : Bool :=
  (ratioAgainst (p.end_ - p.start) standardW).gt Flt.d0_8
  || ((ratioAgainst (p.bottom - p.top) standardH).gt Flt.d0_8
      && (ratioAgainst (p.end_ - p.start) standardW).gt Flt.d0_5)

/-- In the scan of `doReCut` on `patch` at threshold `t`, the offsets `s < e` bound a
sub-run: every entry of `whiteCount` strictly between them reaches the threshold. -/
def IsSubRun (img : Mat) (patch : Patch) (t : Int) (s e : Int) : Prop :=
  0 ≤ s ∧ s < e ∧ e ≤ patch.end_ - patch.start ∧
  ∀ k : Int, s < k → k < e → t ≤ reCutWhiteCount img patch k

/-- A box pushed by the scan of `doReCut` comes from a sub-run: it is returned by the
recursive call on the sub-run when that is wider than `meanHeight * 5 / 4`, and it is the
sub-run itself otherwise. -/
def FromSubRun (u : Int × Int) (region : Region) (patch : Patch) (t : Int)
    (recur : Patch → Option (List Patch)) (b : Patch) : Prop :=
  ∃ s e : Int, IsSubRun region.img patch t s e ∧
    ((Int.tdiv (region.meanHeight * 5) 4 < e - s ∧
        ∃ w, recur (Patch.mk3 u (s + patch.start) (e + patch.start) PatchType.NOTYPE) = some w ∧
          b ∈ w) ∨
      (e - s ≤ Int.tdiv (region.meanHeight * 5) 4 ∧
        b = Patch.mk3 u (s + patch.start) (e + patch.start) PatchType.NOTYPE))

/-- State of the scan of `cut` after the iterations `0, ..., n - 1`. -/
def cutLoop (u : Int × Int) (wc : Int → Int) (n : Nat) : Int × Int × List Patch :=
  (List.range n).foldl (cutStep u wc) (0, 0, [])

/-- The columns `a, ..., b` are a maximal run of ink columns (columns whose ink count is
positive) with a blank column on each side, `a - 1` and `b + 1`, inside the bitmap. -/
def BlankBoundedRun (img : Mat) (a b : Nat) : Prop :=
  1 ≤ a ∧ a ≤ b ∧ b + 1 < img.cols ∧
  colWhiteCount img ((a : Int) - 1) = 0 ∧ colWhiteCount img ((b : Int) + 1) = 0 ∧
  ∀ j : Nat, j < b + 1 → a ≤ j → 0 < colWhiteCount img (j : Int)

/-- Row `i` has ink in the column range `[start, end)` of the patch. -/
def RowHasInk (img : Mat) (p : Patch) (i : Nat) : Prop :=
  ∃ j : Int, p.start ≤ j ∧ j < p.end_ ∧ img.ink (i : Int) j = 1

/-- The ordering of C2: the starts of adjacent boxes increase strictly,
`boxes[i].start < boxes[i + 1].start`. -/
def Ascending (l : List Patch) : Prop :=
  ∀ i : Nat, i + 1 < l.length → (l.getD i default).start < (l.getD (i + 1) default).start

/-- The geometry of C3: every box has `end > start` and `bottom > top`. -/
def NonDegenerate (l : List Patch) : Prop :=
  ∀ p ∈ l, p.end_ > p.start ∧ p.bottom > p.top

/-- A patch has ink when some sample of its column range is ink. -/
def HasInk (img : Mat) (p : Patch) : Prop :=
  ∃ i : Nat, i < img.rows ∧ ∃ j : Int, p.start ≤ j ∧ j < p.end_ ∧ img.ink (i : Int) j = 1

/-- The boxes of a sequence are in column order and do not overlap: each ends no later than
every later one starts, and each has `start < end`. -/
def Sep (l : List Patch) : Prop :=
  l.Pairwise (fun a b => a.end_ ≤ b.start) ∧ ∀ p ∈ l, p.start < p.end_

/-- Invariant of the scan of `cut` after the iterations `0, ..., n - 1`. -/
def CutInv (wc : Int → Int) (n : Nat) (st : Int × Int × List Patch) : Prop :=
  st.2.2.Pairwise (fun a b => a.end_ ≤ b.start) ∧
  (∀ p ∈ st.2.2, 0 ≤ p.start ∧ 0 < wc p.start ∧ p.start + 2 < p.end_ ∧ p.end_ < (n : Int)) ∧
  (0 < wc (n : Int) → 0 ≤ st.1 ∧ st.1 ≤ (n : Int) ∧ 0 < wc st.1 ∧ ∀ p ∈ st.2.2, p.end_ < st.1)

/-- What a call of `doReCut` on `patch` returns when it returns `v`: boxes in column order,
separated, inside the column range of `patch`, each holding ink. -/
def ReCutPost (img : Mat) (patch : Patch) (v : List Patch) : Prop :=
  Sep v ∧ ∀ b ∈ v, patch.start ≤ b.start ∧ b.end_ ≤ patch.end_ ∧ HasInk img b

/-- Invariant of the scan of `doReCut` after the iterations `0, ..., n - 1`. -/
def ReCutInv (img : Mat) (patch : Patch) (t : Int) (n : Nat) (st : Int × List Patch) : Prop :=
  st.2.Pairwise (fun a b => a.end_ ≤ b.start) ∧
  (∀ b ∈ st.2, patch.start ≤ b.start ∧ b.start < b.end_ ∧ b.end_ ≤ patch.start + (n : Int) ∧
    HasInk img b) ∧
  0 ≤ st.1 ∧
  (t ≤ reCutWhiteCount img patch (n : Int) →
    st.1 ≤ (n : Int) ∧ ∀ b ∈ st.2, b.end_ ≤ patch.start + st.1)

/-- Every box of the sequence has `top < bottom`. -/
def Tall (l : List Patch) : Prop := ∀ p ∈ l, p.top < p.bottom

/-- Invariant of the loop of `merge`: the boxes pushed so far are in column order, separated,
with `top < bottom`, and end before the input boxes still to come. -/
def MergeInv (region : Region) (i : Nat) (acc : List Patch) : Prop :=
  acc.Pairwise (fun a b => a.end_ ≤ b.start) ∧
  (∀ b ∈ acc, b.start < b.end_ ∧ b.top < b.bottom) ∧
  (∀ b ∈ acc, ∀ k, i ≤ k → k < region.patches.length →
    b.end_ ≤ (region.patches.getD k default).start)

/-- A narrow three-row bitmap with one small box: no box is a reference sample. -/
def tinyLine : Region :=
  ⟨⟨3, 3, fun _ _ => 0⟩, 0, 0, [⟨0, 2, 0, 2, PatchType.NOTYPE⟩]⟩

/-- A 24 by 30 line holding one box 20 wide and 19 high. -/
def oneGlyph : Region :=
  ⟨⟨24, 30, fun _ _ => 255⟩, 0, 0, [⟨2, 22, 2, 21, PatchType.NOTYPE⟩]⟩

/-- The bounding union of three patches as `merge` builds it: `bigPatch` over `patch1`,
`patch2`, `patch3`. -/
def union3 (a b c : Patch) : Patch :=
  ⟨a.start, c.end_, min (min a.top b.top) c.top, max (max a.bottom b.bottom) c.bottom,
    PatchType.HANZI⟩

/-- Three boxes side by side, 20 rows high, in a line of mean height 20. -/
def threeParts : Region :=
  ⟨⟨24, 30, fun _ _ => 255⟩, 20, 26,
    [⟨2, 8, 2, 22, PatchType.NOTYPE⟩, ⟨9, 15, 2, 22, PatchType.NOTYPE⟩,
      ⟨16, 22, 2, 22, PatchType.NOTYPE⟩]⟩

/-- The column and row ranges of a patch. -/
def Patch.geom (p : Patch) : Int × Int × Int × Int := (p.start, p.end_, p.top, p.bottom)

/-- Two boxes 5 wide and 9 high, side by side, in a line of mean height 11: both heights
are below 90% of the mean height (9.9), not below `11 * 9 / 10 = 9`. -/
def similarPair : Region :=
  ⟨⟨24, 30, fun _ _ => 255⟩, 11, 26,
    [⟨0, 5, 0, 9, PatchType.NOTYPE⟩, ⟨5, 10, 0, 9, PatchType.NOTYPE⟩]⟩

/-- The pair of `similarPair` in a line of mean height 12. -/
def similarPairVeto : Region :=
  ⟨⟨24, 30, fun _ _ => 255⟩, 12, 26,
    [⟨0, 5, 0, 9, PatchType.NOTYPE⟩, ⟨5, 10, 0, 9, PatchType.NOTYPE⟩]⟩

/-- A 10 by 24 bitmap with one bar of ink, 8 rows thick, over the columns 1 to 22. -/
def barLine : Mat :=
  ⟨10, 24, fun i j => if (1 ≤ i ∧ i < 9) ∧ (1 ≤ j ∧ j < 23) then 0 else 255⟩

/-- A 24 by 30 bitmap with three strokes of ink, 20 rows high, at the columns 2 to 8,
10 to 15 and 17 to 22. -/
def strokesLine : Mat :=
  ⟨24, 30, fun i j =>
    if (2 ≤ i ∧ i < 22) ∧ ((2 ≤ j ∧ j < 9) ∨ (10 ≤ j ∧ j < 16) ∨ (17 ≤ j ∧ j < 23)) then 0
    else 255⟩

/-- A 20 by 61 bitmap whose ink is two blocks of 20 by 20 at the columns `[5, 25)` and
`[40, 60)`. -/
def twoBlocks : Mat :=
  ⟨20, 61, fun i j =>
    if (0 ≤ i ∧ i < 20) ∧ ((5 ≤ j ∧ j < 25) ∨ (40 ≤ j ∧ j < 60)) then 0 else 255⟩

/-- Column profile of the two-block line: ink on the columns `[5, 25)` and `[40, 60)`. -/
def twoBlockProfile (j : Int) : Int :=
  if (5 ≤ j ∧ j < 25) ∨ (40 ≤ j ∧ j < 60) then 1 else 0

/-- A 24 by 30 bitmap with no ink. -/
def blankLine : Mat := ⟨24, 30, fun _ _ => 255⟩

/-- A 6 by 6 bitmap with ink on the rows 2 to 4 of the columns 1 to 3. -/
def smallBlock : Mat :=
  ⟨6, 6, fun i j => if (2 ≤ i ∧ i < 5) ∧ (1 ≤ j ∧ j < 4) then 0 else 255⟩

/-- A 5 by 7 bitmap whose ink is the three columns 2 to 4. -/
def threeColumnRun : Mat :=
  ⟨5, 7, fun i j => if (0 ≤ i ∧ i < 5) ∧ (2 ≤ j ∧ j < 5) then 0 else 255⟩

/-- A 5 by 8 bitmap whose ink is the four columns 2 to 5. -/
def fourColumnRun : Mat :=
  ⟨5, 8, fun i j => if (0 ≤ i ∧ i < 5) ∧ (2 ≤ j ∧ j < 6) then 0 else 255⟩

/-- A 5 by 8 bitmap whose ink is the five columns 3 to 7, up to the last column. -/
def rightEdgeRun : Mat :=
  ⟨5, 8, fun i j => if (0 ≤ i ∧ i < 5) ∧ (3 ≤ j ∧ j < 8) then 0 else 255⟩

/-- A 5 by 8 bitmap whose ink is the five columns 0 to 4, from the first column. -/
def leftEdgeRun : Mat :=
  ⟨5, 8, fun i j => if (0 ≤ i ∧ i < 5) ∧ (0 ≤ j ∧ j < 5) then 0 else 255⟩

/-- Four boxes side by side in a line of mean height 20; the third is higher than the
others: it spans the rows 0 to 24, the others the rows 2 to 22. -/
def fourParts : Region :=
  ⟨⟨24, 30, fun _ _ => 255⟩, 20, 26,
    [⟨0, 4, 2, 22, PatchType.NOTYPE⟩, ⟨5, 9, 2, 22, PatchType.NOTYPE⟩,
      ⟨10, 14, 0, 24, PatchType.NOTYPE⟩, ⟨15, 20, 2, 22, PatchType.NOTYPE⟩]⟩

/-- A 10 by 24 bitmap with two blocks of ink, 8 rows high, at the columns 1 to 8 and 12 to
20, joined by a bridge one row thick. -/
def bridgeLine : Mat :=
  ⟨10, 24, fun i j =>
    if ((1 ≤ i ∧ i < 9) ∧ ((1 ≤ j ∧ j < 9) ∨ (12 ≤ j ∧ j < 21))) ∨ (i = 4 ∧ 9 ≤ j ∧ j < 12)
    then 0 else 255⟩

/-- A 12 by 24 bitmap with one bar of ink, 10 rows thick, over the columns 1 to 19. -/
def thickBar : Mat :=
  ⟨12, 24, fun i j => if (1 ≤ i ∧ i < 11) ∧ (1 ≤ j ∧ j < 20) then 0 else 255⟩

/-- A flat box followed by two `HANZI` boxes, in a line of mean height and width 20. -/
def flatFirst : Region :=
  ⟨⟨24, 70, fun _ _ => 255⟩, 20, 20,
    [⟨0, 18, 2, 8, PatchType.NOTYPE⟩, ⟨20, 40, 2, 22, PatchType.HANZI⟩,
      ⟨42, 62, 2, 22, PatchType.HANZI⟩]⟩

/-- A `HANZI` box, a flat box and another box, in a line of mean height and width 20. -/
def flatMiddle : Region :=
  ⟨⟨24, 90, fun _ _ => 255⟩, 20, 20,
    [⟨20, 40, 2, 22, PatchType.HANZI⟩, ⟨42, 60, 2, 8, PatchType.NOTYPE⟩,
      ⟨62, 82, 2, 22, PatchType.NOTYPE⟩]⟩

/-- A line with two boxes, the first `HANZI` and the second `ENG`. -/
def twoBoxRecord : Region :=
  ⟨⟨24, 40, fun _ _ => 255⟩, 19, 20,
    [⟨2, 22, 2, 21, PatchType.HANZI⟩, ⟨25, 30, 4, 20, PatchType.ENG⟩]⟩


/-! ## Ink counts and height resolution -/

theorem Mat.ink_cases (img : Mat) (i j : Int) : img.ink i j = 0 ∨ img.ink i j = 1 := by
  unfold Mat.ink Mat.px
  rw [Int.tdiv_eq_ediv (by omega) (by omega)]
  omega

theorem Mat.ink_eq_one_iff (img : Mat) (i j : Int) : img.ink i j = 1 ↔ img.px i j ≠ 255 := by
  unfold Mat.ink Mat.px
  rw [Int.tdiv_eq_ediv (by omega) (by omega)]
  omega

/-- A sum of zeros and ones accumulated by a loop is positive exactly when it started positive
or met a one. -/
theorem foldl_count {α : Type} (f : α → Int) (hf : ∀ a, f a = 0 ∨ f a = 1) (l : List α) :
    ∀ acc : Int, 0 ≤ acc →
      0 ≤ l.foldl (fun c a => c + f a) acc ∧
      (0 < l.foldl (fun c a => c + f a) acc ↔ 0 < acc ∨ ∃ a ∈ l, f a = 1) := by
  induction l with
  | nil => intro acc h; simpa using h
  | cons x l ih =>
    intro acc h
    rw [List.foldl_cons]
    have hx := hf x
    obtain ⟨h1, h2⟩ := ih (acc + f x) (by omega)
    refine ⟨h1, h2.trans ?_⟩
    constructor
    · rintro (h | ⟨a, ha, h⟩)
      · by_cases hacc : 0 < acc
        · exact Or.inl hacc
        · exact Or.inr ⟨x, List.mem_cons_self _ _, by omega⟩
      · exact Or.inr ⟨a, List.mem_cons_of_mem _ ha, h⟩
    · rintro (h | ⟨a, ha, h⟩)
      · exact Or.inl (by omega)
      · rcases List.mem_cons.1 ha with rfl | ha
        · exact Or.inl (by omega)
        · exact Or.inr ⟨a, ha, h⟩

theorem mem_intRange (s e j : Int) : j ∈ intRange s e ↔ s ≤ j ∧ j < e := by
  unfold intRange
  simp only [List.mem_map, List.mem_range]
  constructor
  · rintro ⟨k, hk, rfl⟩
    omega
  · rintro ⟨h1, h2⟩
    exact ⟨(j - s).toNat, by omega, by omega⟩

theorem colWhiteCount_nonneg (img : Mat) (j : Int) : 0 ≤ colWhiteCount img j :=
  (foldl_count (fun n : Nat => img.ink (n : Int) j) (fun _ => img.ink_cases _ _)
    (List.range img.rows) 0 (le_refl _)).1

theorem colWhiteCount_pos_iff (img : Mat) (j : Int) :
    0 < colWhiteCount img j ↔ ∃ i : Nat, i < img.rows ∧ img.ink (i : Int) j = 1 := by
  have h := (foldl_count (fun n : Nat => img.ink (n : Int) j) (fun _ => img.ink_cases _ _)
    (List.range img.rows) 0 (le_refl _)).2
  unfold colWhiteCount
  rw [h]
  simp [List.mem_range]

theorem rowWhiteCount_ge_one_iff (img : Mat) (i s e : Int) :
    rowWhiteCount img i s e ≥ 1 ↔ ∃ j, s ≤ j ∧ j < e ∧ img.ink i j = 1 := by
  have h := (foldl_count (fun j : Int => img.ink i j) (fun _ => img.ink_cases _ _)
    (intRange s e) 0 (le_refl _)).2
  have h1 : rowWhiteCount img i s e ≥ 1 ↔ 0 < rowWhiteCount img i s e := by omega
  rw [h1]
  unfold rowWhiteCount
  rw [h]
  simp [mem_intRange, and_assoc]



theorem findHeightForPatch_cols (img : Mat) (p : Patch) :
    (findHeightForPatch img p).start = p.start ∧ (findHeightForPatch img p).end_ = p.end_ ∧
      (findHeightForPatch img p).ptype = p.ptype := by
  unfold findHeightForPatch
  simp only []
  split_ifs <;> split <;> split <;> simp

/-- The first index found by a scan upwards is not above the first found by a scan
downwards. -/
theorem find_range_le (P : Nat → Bool) (n a b : Nat)
    (ha : (List.range n).find? P = some a) (hb : (List.range n).reverse.find? P = some b) :
    a ≤ b := by
  by_contra hlt
  have hPb : P b = true := List.find?_some hb
  have hbn : b ∈ List.range n := List.mem_reverse.1 (List.mem_of_find?_eq_some hb)
  obtain ⟨_, as, bs, hsplit, hneg⟩ := List.find?_eq_some.1 ha
  have hpw : (as ++ a :: bs).Pairwise (· < ·) := hsplit ▸ List.pairwise_lt_range n
  rw [hsplit] at hbn
  rcases List.mem_append.1 hbn with h | h
  · have := hneg b h
    simp [hPb] at this
  · rcases List.mem_cons.1 h with h | h
    · omega
    · have := (List.pairwise_cons.1 (List.pairwise_append.1 hpw).2.1).1 b h
      omega

theorem findHeightForPatch_rows (img : Mat) (p : Patch) (h : HasInk img p) :
    (findHeightForPatch img p).top < (findHeightForPatch img p).bottom := by
  obtain ⟨i, hi, hj⟩ := h
  have hP : (fun (k : Nat) => decide (rowWhiteCount img (k : Int) p.start p.end_ ≥ 1)) i = true := by
    simp only [decide_eq_true_eq]
    exact (rowWhiteCount_ge_one_iff img i p.start p.end_).2 hj
  have h1 : ((List.range img.rows).find?
      (fun (k : Nat) => decide (rowWhiteCount img (k : Int) p.start p.end_ ≥ 1))).isSome :=
    List.find?_isSome.2 ⟨i, List.mem_range.2 hi, hP⟩
  have h2 : ((List.range img.rows).reverse.find?
      (fun (k : Nat) => decide (rowWhiteCount img (k : Int) p.start p.end_ ≥ 1))).isSome :=
    List.find?_isSome.2 ⟨i, List.mem_reverse.2 (List.mem_range.2 hi), hP⟩
  obtain ⟨a, ha⟩ := Option.isSome_iff_exists.1 h1
  obtain ⟨b, hb⟩ := Option.isSome_iff_exists.1 h2
  have hab := find_range_le _ _ a b ha hb
  unfold findHeightForPatch
  simp only [ha, hb]
  split_ifs with hc
  · simp only []; omega
  · simp only [] at hc ⊢; omega


/-! ## Line statistics -/

theorem meanStep_inv (rows : Nat) (l : List Patch)
    (hl : ∀ p ∈ l, p.start < p.end_ ∧ p.top < p.bottom) :
    ∀ st : Int × Int × Int, 0 ≤ st.1 ∧ st.1 ≤ st.2.1 ∧ st.1 ≤ st.2.2 →
      0 ≤ (l.foldl (meanStep rows) st).1 ∧
      (l.foldl (meanStep rows) st).1 ≤ (l.foldl (meanStep rows) st).2.1 ∧
      (l.foldl (meanStep rows) st).1 ≤ (l.foldl (meanStep rows) st).2.2 := by
  induction l with
  | nil => intro st h; simpa using h
  | cons p l ih =>
    intro st h
    rw [List.foldl_cons]
    apply ih (fun q hq => hl q (List.mem_cons_of_mem _ hq))
    have hp := hl p (List.mem_cons_self _ _)
    unfold meanStep
    simp only []
    split_ifs
    · exact h
    · refine ⟨by omega, ?_, ?_⟩ <;> simp only [] <;> omega

/-- C9, as stated, fails on `tinyLine`: the bitmap is 3 by 3, the box has positive width and
height, and both means come out negative. -/
theorem findMean_counterexample :
    0 < tinyLine.img.rows ∧ 0 < tinyLine.img.cols ∧
      (∀ p ∈ tinyLine.patches, p.start < p.end_ ∧ p.top < p.bottom) ∧
      (findMeanHeightWidthForRegion tinyLine).meanHeight = -1 ∧
      (findMeanHeightWidthForRegion tinyLine).meanWidth = -1 := by
  decide

/-- C9, amended. For every bitmap with more than 4 rows and more than 4 columns and every
box sequence with positive widths and heights, `meanHeight` and `meanWidth` are strictly
positive after `findMeanHeightWidthForRegion`, also when no box is a reference sample. -/
theorem findMean_pos (region : Region) (hr : 4 < region.img.rows) (hc : 4 < region.img.cols)
    (hl : ∀ p ∈ region.patches, p.start < p.end_ ∧ p.top < p.bottom) :
    0 < (findMeanHeightWidthForRegion region).meanHeight ∧
      0 < (findMeanHeightWidthForRegion region).meanWidth := by
  obtain ⟨h0, h1, h2⟩ := meanStep_inv region.img.rows region.patches hl (0, 0, 0)
    ⟨le_refl _, le_refl _, le_refl _⟩
  unfold findMeanHeightWidthForRegion
  simp only []
  split_ifs with hz
  · simp only []
    omega
  · simp only []
    have hpos : 0 < (region.patches.foldl (meanStep region.img.rows) (0, 0, 0)).1 := by omega
    rw [Int.tdiv_eq_ediv (by omega) h0, Int.tdiv_eq_ediv (by omega) h0]
    exact ⟨Int.lt_of_lt_of_le Int.zero_lt_one (Int.le_ediv_of_mul_le hpos (by omega)),
      Int.lt_of_lt_of_le Int.zero_lt_one (Int.le_ediv_of_mul_le hpos (by omega))⟩

theorem findMean_pos_witness :
    0 < (findMeanHeightWidthForRegion oneGlyph).meanHeight ∧
      0 < (findMeanHeightWidthForRegion oneGlyph).meanWidth :=
  findMean_pos oneGlyph (by decide) (by decide) (by decide)


/-! ## Invariants of `cut` -/

theorem cutStep_inv (u : Int × Int) (wc : Int → Int) (hwc : ∀ j, 0 ≤ wc j) (n : Nat)
    (st : Int × Int × List Patch) (h : CutInv wc n st) :
    CutInv wc (n + 1) (cutStep u wc st n) := by
  obtain ⟨hpw, hall, hrun⟩ := h
  have h0 := hwc (n : Int)
  have h1 := hwc ((n : Int) + 1)
  unfold cutStep
  simp only []
  by_cases hr : wc (n : Int) = 0 ∧ wc ((n : Int) + 1) > 0
  · -- a run starts at column n + 1
    have hf : ¬ (wc (n : Int) > 0 ∧ wc ((n : Int) + 1) = 0) := by omega
    rw [if_pos hr, if_neg hf]
    refine ⟨hpw, fun p hp => ?_, fun _ => ⟨by omega, by push_cast; omega, hr.2, fun p hp => ?_⟩⟩
    · have := hall p hp; push_cast; omega
    · have := hall p hp; omega
  · rw [if_neg hr]
    by_cases hf : wc (n : Int) > 0 ∧ wc ((n : Int) + 1) = 0
    · -- the run ends at column n
      rw [if_pos hf]
      obtain ⟨hs0, hsn, hws, hlt⟩ := hrun hf.1
      split_ifs with hw
      · refine ⟨?_, ?_, fun hc => ?_⟩
        · simp only []
          rw [List.pairwise_append]
          refine ⟨hpw, List.pairwise_singleton _ _, fun a ha b hb => ?_⟩
          rw [List.mem_singleton.1 hb]
          have := hlt a ha
          simp only [Patch.mk3]; omega
        · intro p hp
          simp only [] at hp
          rcases List.mem_append.1 hp with hp | hp
          · have := hall p hp; push_cast; omega
          · rw [List.mem_singleton.1 hp]
            simp only [Patch.mk3]
            push_cast
            omega
        · push_cast at hc; omega
      · refine ⟨hpw, fun p hp => ?_, fun hc => ?_⟩
        · have := hall p hp; push_cast; omega
        · push_cast at hc; omega
    · rw [if_neg hf]
      refine ⟨hpw, fun p hp => ?_, fun hc => ?_⟩
      · have := hall p hp; push_cast; omega
      · push_cast at hc
        have hpos : 0 < wc (n : Int) := by omega
        obtain ⟨hs0, hsn, hws, hlt⟩ := hrun hpos
        exact ⟨hs0, by push_cast; omega, hws, hlt⟩

theorem cutLoop_inv (u : Int × Int) (wc : Int → Int) (hwc : ∀ j, 0 ≤ wc j) (n : Nat) :
    CutInv wc n ((List.range n).foldl (cutStep u wc) (0, 0, [])) := by
  induction n with
  | zero =>
    refine ⟨List.Pairwise.nil, fun p hp => ?_, fun h => ⟨le_refl _, le_refl _, h, fun p hp => ?_⟩⟩
    · simp at hp
    · simp at hp
  | succ n ih =>
    rw [List.range_succ, List.foldl_append]
    exact cutStep_inv u wc hwc n _ ih



theorem findMean_patches (r : Region) :
    (findMeanHeightWidthForRegion r).patches = r.patches ∧
      (findMeanHeightWidthForRegion r).img = r.img := by
  unfold findMeanHeightWidthForRegion
  simp only []
  split_ifs <;> exact ⟨rfl, rfl⟩

theorem findHeights_patches (r : Region) :
    (findHeights r).patches = r.patches.map (findHeightForPatch r.img) ∧
      (findHeights r).img = r.img := by
  unfold findHeights
  exact ⟨(findMean_patches _).1, (findMean_patches _).2⟩

theorem HasInk_of_cols (img : Mat) (p q : Patch) (hs : q.start = p.start) (he : q.end_ = p.end_)
    (h : HasInk img p) : HasInk img q := by
  unfold HasInk at h ⊢
  rw [hs, he]
  exact h

/-- Height resolution keeps the column ranges, hence order and separation of the boxes, and
gives every box that has ink a row range with `top < bottom`. -/
theorem map_findHeight_good (img : Mat) (l : List Patch) (hsep : Sep l)
    (hink : ∀ p ∈ l, HasInk img p) :
    Sep (l.map (findHeightForPatch img)) ∧
      ∀ p ∈ l.map (findHeightForPatch img), HasInk img p ∧ p.top < p.bottom := by
  refine ⟨⟨?_, ?_⟩, ?_⟩
  · rw [List.pairwise_map]
    refine hsep.1.imp ?_
    intro a b hab
    rw [(findHeightForPatch_cols img a).2.1, (findHeightForPatch_cols img b).1]
    exact hab
  · intro p hp
    obtain ⟨q, hq, rfl⟩ := List.mem_map.1 hp
    rw [(findHeightForPatch_cols img q).2.1, (findHeightForPatch_cols img q).1]
    exact hsep.2 q hq
  · intro p hp
    obtain ⟨q, hq, rfl⟩ := List.mem_map.1 hp
    exact ⟨HasInk_of_cols img q _ (findHeightForPatch_cols img q).1
      (findHeightForPatch_cols img q).2.1 (hink q hq), findHeightForPatch_rows img q (hink q hq)⟩

theorem cut_patches (u : Int × Int) (img : Mat) :
    (cut u img).patches = (((List.range (img.cols - 1)).foldl
      (cutStep u (colWhiteCount img)) (0, 0, [])).2.2).map (findHeightForPatch img) ∧
      (cut u img).img = img := by
  unfold cut
  exact ⟨(findHeights_patches _).1, (findHeights_patches _).2⟩

/-- The boxes `cut` returns are in column order, separated, inside the bitmap, each holds ink
and each has `top < bottom`. -/
theorem cut_good (u : Int × Int) (img : Mat) :
    Sep (cut u img).patches ∧
      ∀ p ∈ (cut u img).patches, HasInk img p ∧ p.top < p.bottom := by
  rw [(cut_patches u img).1]
  obtain ⟨hpw, hall, _⟩ := cutLoop_inv u (colWhiteCount img) (colWhiteCount_nonneg img)
    (img.cols - 1)
  apply map_findHeight_good
  · exact ⟨hpw, fun p hp => by have := hall p hp; omega⟩
  · intro p hp
    obtain ⟨_, hw, hlt, _⟩ := hall p hp
    obtain ⟨i, hi, hink⟩ := (colWhiteCount_pos_iff img p.start).1 hw
    exact ⟨i, hi, p.start, le_refl _, by omega, hink⟩


/-! ## Termination of `doReCut` -/

theorem doReCutFuel_succ (u : Int × Int) (depth : Nat) (region : Region) (patch : Patch)
    (t : Int) :
    doReCutFuel u (depth + 1) region patch t =
      if t ≥ 10 then some [patch]
      else ((List.range (patch.end_ - patch.start).toNat).foldl
        (doReCutStep u region patch t (fun sub => doReCutFuel u depth region sub (t + 1)))
        (some (0, []))).map Prod.snd := rfl

/-- The scan of `doReCut` returns when each of its recursive calls does. -/
theorem doReCutScan_some (u : Int × Int) (region : Region) (patch : Patch) (t : Int)
    (g : Patch → List Patch) (l : List Nat) :
    ∀ st : Int × List Patch, ∃ r,
      l.foldl (doReCutStep u region patch t (fun sub => some (g sub))) (some st) = some r := by
  induction l with
  | nil => intro st; exact ⟨st, rfl⟩
  | cons n l ih =>
    intro st
    rw [List.foldl_cons]
    have : ∃ st1, doReCutStep u region patch t (fun sub => some (g sub)) (some st) n
        = some st1 := by
      unfold doReCutStep
      simp only []
      split_ifs <;> exact ⟨_, rfl⟩
    obtain ⟨st1, h1⟩ := this
    rw [h1]
    exact ih st1

theorem doReCutFuel_total (u : Int × Int) (region : Region) :
    ∀ n : Nat, ∀ (t : Int) (patch : Patch), (10 - t).toNat ≤ n →
      ∃ v, ∀ d, doReCutFuel u (n + d + 1) region patch t = some v := by
  intro n
  induction n with
  | zero =>
    intro t patch h
    refine ⟨[patch], fun d => ?_⟩
    rw [doReCutFuel_succ, if_pos (by omega)]
  | succ n ih =>
    intro t patch h
    by_cases ht : t ≥ 10
    · refine ⟨[patch], fun d => ?_⟩
      rw [doReCutFuel_succ, if_pos ht]
    · have h1 : (10 - (t + 1)).toNat ≤ n := by omega
      choose g hg using fun sub => ih (t + 1) sub h1
      obtain ⟨r, hr⟩ := doReCutScan_some u region patch t g
        (List.range (patch.end_ - patch.start).toNat) (0, [])
      refine ⟨r.2, fun d => ?_⟩
      rw [doReCutFuel_succ, if_neg ht]
      have hf : (fun sub => doReCutFuel u (n + 1 + d) region sub (t + 1))
          = fun sub => some (g sub) := by
        funext sub
        have := hg sub d
        rw [show n + 1 + d = n + d + 1 by omega]
        exact this
      rw [hf, hr]
      rfl

/-- C8. `doReCut` terminates for every bitmap, box and starting threshold `t`: run with a bound
of `10 - t + 1` nested calls (10 from threshold 1, a single call from threshold 10 on) it
returns a result, the same under every larger bound. -/
theorem doReCut_terminates (u : Int × Int) (region : Region) (patch : Patch) (t : Int) :
    ∃ v, ∀ d, doReCutFuel u ((10 - t).toNat + 1 + d) region patch t = some v := by
  obtain ⟨v, hv⟩ := doReCutFuel_total u region (10 - t).toNat t patch (le_refl _)
  refine ⟨v, fun d => ?_⟩
  rw [show (10 - t).toNat + 1 + d = (10 - t).toNat + d + 1 by omega]
  exact hv d


/-! ## Invariants of `doReCut` and `reCut` -/

theorem doReCutStep_inv (u : Int × Int) (region : Region) (patch : Patch) (t : Int)
    (ht : 1 ≤ t) (recur : Patch → Option (List Patch))
    (hrec : ∀ sub w, sub.start < sub.end_ → HasInk region.img sub → recur sub = some w →
      ReCutPost region.img sub w)
    (n : Nat) (hn : (n : Int) < patch.end_ - patch.start) (st st1 : Int × List Patch)
    (h : ReCutInv region.img patch t n st)
    (hst : doReCutStep u region patch t recur (some st) n = some st1) :
    ReCutInv region.img patch t (n + 1) st1 := by
  obtain ⟨s0, v⟩ := st
  obtain ⟨hpw, hall, hs0, hrun⟩ := h
  simp only [] at hpw hall hs0 hrun
  unfold doReCutStep at hst
  simp only [] at hst
  by_cases hr : reCutWhiteCount region.img patch (n : Int) < t ∧
      reCutWhiteCount region.img patch ((n : Int) + 1) ≥ t
  · have hf : ¬ (reCutWhiteCount region.img patch (n : Int) ≥ t ∧
        reCutWhiteCount region.img patch ((n : Int) + 1) < t) := by omega
    rw [if_pos hr, if_neg hf] at hst
    cases hst
    refine ⟨hpw, fun b hb => ?_, by simp only []; omega, fun _ => ⟨by push_cast; omega, fun b hb => ?_⟩⟩
    · obtain ⟨h1, h2, h3, h4⟩ := hall b hb
      exact ⟨h1, h2, by push_cast; omega, h4⟩
    · exact (hall b hb).2.2.1
  · rw [if_neg hr] at hst
    by_cases hf : reCutWhiteCount region.img patch (n : Int) ≥ t ∧
        reCutWhiteCount region.img patch ((n : Int) + 1) < t
    · rw [if_pos hf] at hst
      obtain ⟨hsn, hlt⟩ := hrun hf.1
      -- the sub-run `[s0, n + 1)` holds the ink of column `n`
      have hsub : HasInk region.img
          (Patch.mk3 u (s0 + patch.start) ((n : Int) + 1 + patch.start) PatchType.NOTYPE) := by
        have hw : 0 < reCutWhiteCount region.img patch (n : Int) := by omega
        unfold reCutWhiteCount at hw
        rw [if_pos ⟨by omega, hn⟩] at hw
        obtain ⟨i, hi, hink⟩ := (colWhiteCount_pos_iff region.img _).1 hw
        exact ⟨i, hi, patch.start + (n : Int), by simp only [Patch.mk3]; omega,
          by simp only [Patch.mk3]; omega, hink⟩
      have hnew : ∀ w : List Patch,
          ReCutPost region.img
            (Patch.mk3 u (s0 + patch.start) ((n : Int) + 1 + patch.start) PatchType.NOTYPE) w →
          ReCutInv region.img patch t (n + 1) (s0, v ++ w) := by
        intro w hw
        refine ⟨?_, fun b hb => ?_, hs0, fun hc => ?_⟩
        · simp only []
          rw [List.pairwise_append]
          refine ⟨hpw, hw.1.1, fun a ha b hb => ?_⟩
          have h1 := hlt a ha
          have h2 := (hw.2 b hb).1
          simp only [Patch.mk3] at h2
          omega
        · rcases List.mem_append.1 hb with hb | hb
          · obtain ⟨h1, h2, h3, h4⟩ := hall b hb
            exact ⟨h1, h2, by push_cast; omega, h4⟩
          · obtain ⟨h1, h2, h3⟩ := hw.2 b hb
            simp only [Patch.mk3] at h1 h2
            exact ⟨by omega, hw.1.2 b hb, by push_cast; omega, h3⟩
        · push_cast at hc; omega
      split_ifs at hst with hw1 hw2
      · cases hrc : recur
            (Patch.mk3 u (s0 + patch.start) ((n : Int) + 1 + patch.start) PatchType.NOTYPE) with
        | none => rw [hrc] at hst; cases hst
        | some w =>
          rw [hrc] at hst
          cases hst
          exact hnew w (hrec _ w (by simp only [Patch.mk3]; omega) hsub hrc)
      · cases hst
        refine hnew _ ⟨⟨List.pairwise_singleton _ _, fun b hb => ?_⟩, fun b hb => ?_⟩
        · rw [List.mem_singleton.1 hb]; simp only [Patch.mk3]; omega
        · rw [List.mem_singleton.1 hb]; exact ⟨le_refl _, le_refl _, hsub⟩
      · cases hst
        refine ⟨hpw, fun b hb => ?_, hs0, fun hc => ?_⟩
        · obtain ⟨h1, h2, h3, h4⟩ := hall b hb
          exact ⟨h1, h2, by push_cast; omega, h4⟩
        · push_cast at hc; omega
    · rw [if_neg hf] at hst
      cases hst
      refine ⟨hpw, fun b hb => ?_, hs0, fun hc => ?_⟩
      · obtain ⟨h1, h2, h3, h4⟩ := hall b hb
        exact ⟨h1, h2, by push_cast; omega, h4⟩
      · push_cast at hc
        have hge : t ≤ reCutWhiteCount region.img patch (n : Int) := by omega
        obtain ⟨hsn, hlt⟩ := hrun hge
        exact ⟨by push_cast; omega, hlt⟩

theorem doReCutScan_inv (u : Int × Int) (region : Region) (patch : Patch) (t : Int)
    (ht : 1 ≤ t) (recur : Patch → Option (List Patch))
    (hrec : ∀ sub w, sub.start < sub.end_ → HasInk region.img sub → recur sub = some w →
      ReCutPost region.img sub w) :
    ∀ (n : Nat), (n : Int) ≤ patch.end_ - patch.start → ∀ st,
      (List.range n).foldl (doReCutStep u region patch t recur) (some (0, [])) = some st →
      ReCutInv region.img patch t n st := by
  intro n
  induction n with
  | zero =>
    intro _ st hst
    cases hst
    refine ⟨List.Pairwise.nil, fun b hb => ?_, le_refl _, fun _ => ⟨le_refl _, fun b hb => ?_⟩⟩
    · simp at hb
    · simp at hb
  | succ n ih =>
    intro hn st hst
    rw [List.range_succ, List.foldl_append] at hst
    simp only [List.foldl_cons, List.foldl_nil] at hst
    cases hprev : (List.range n).foldl (doReCutStep u region patch t recur) (some (0, [])) with
    | none => rw [hprev] at hst; simp [doReCutStep] at hst
    | some st0 =>
      rw [hprev] at hst
      exact doReCutStep_inv u region patch t ht recur hrec n (by push_cast at hn; omega) st0 st
        (ih (by push_cast at hn; omega) st0 hprev) hst

/-- A call of `doReCut` with threshold at least 1 on a box with ink returns boxes in column
order, separated, inside the column range of the box, each holding ink. -/
theorem doReCutFuel_post (u : Int × Int) (region : Region) :
    ∀ (depth : Nat) (t : Int) (patch : Patch) (v : List Patch), 1 ≤ t →
      patch.start < patch.end_ → HasInk region.img patch →
      doReCutFuel u depth region patch t = some v → ReCutPost region.img patch v := by
  intro depth
  induction depth with
  | zero => intro t patch v _ _ _ h; simp [doReCutFuel] at h
  | succ d ih =>
    intro t patch v ht hlt hink h
    rw [doReCutFuel_succ] at h
    split_ifs at h with hc
    · cases h
      refine ⟨⟨List.pairwise_singleton _ _, fun b hb => ?_⟩, fun b hb => ?_⟩
      · rw [List.mem_singleton.1 hb]; exact hlt
      · rw [List.mem_singleton.1 hb]; exact ⟨le_refl _, le_refl _, hink⟩
    · cases hfold : (List.range (patch.end_ - patch.start).toNat).foldl
          (doReCutStep u region patch t (fun sub => doReCutFuel u d region sub (t + 1)))
          (some (0, [])) with
      | none => rw [hfold] at h; cases h
      | some st =>
        rw [hfold] at h
        cases h
        obtain ⟨hpw, hall, _, _⟩ := doReCutScan_inv u region patch t ht _
          (fun sub w h1 h2 h3 => ih (t + 1) sub w (by omega) h1 h2 h3)
          (patch.end_ - patch.start).toNat (by omega) st hfold
        refine ⟨⟨hpw, fun b hb => (hall b hb).2.1⟩, fun b hb => ?_⟩
        obtain ⟨h1, h2, h3, h4⟩ := hall b hb
        exact ⟨h1, by omega, h4⟩



theorem doReCut_post (u : Int × Int) (region : Region) (patch : Patch) (t : Int) (ht : 1 ≤ t)
    (hlt : patch.start < patch.end_) (hink : HasInk region.img patch) :
    ReCutPost region.img patch (doReCut u region patch t) := by
  obtain ⟨v, hv⟩ := doReCutFuel_total u region (10 - t).toNat t patch (le_refl _)
  have h0 := hv 0
  rw [Nat.add_zero] at h0
  unfold doReCut
  rw [h0]
  exact doReCutFuel_post u region _ t patch v ht hlt hink h0

/-- The loop of `reCut` keeps the boxes in column order, separated and holding ink. -/
theorem reCutLoop_good (u : Int × Int) (region : Region) :
    ∀ (l acc : List Patch), Sep l → (∀ p ∈ l, HasInk region.img p) →
      Sep acc → (∀ a ∈ acc, HasInk region.img a) → (∀ a ∈ acc, ∀ p ∈ l, a.end_ ≤ p.start) →
      Sep (l.foldl (fun newPatches patch =>
          if patch.end_ - patch.start > Int.tdiv (region.meanHeight * 4) 3 then
            newPatches ++ doReCut u region patch 1
          else newPatches ++ [patch]) acc) ∧
        ∀ a ∈ (l.foldl (fun newPatches patch =>
          if patch.end_ - patch.start > Int.tdiv (region.meanHeight * 4) 3 then
            newPatches ++ doReCut u region patch 1
          else newPatches ++ [patch]) acc), HasInk region.img a := by
  intro l
  induction l with
  | nil => intro acc _ _ h1 h2 _; exact ⟨h1, h2⟩
  | cons p l ih =>
    intro acc hl hinkl hacc hinka hcross
    rw [List.foldl_cons]
    have hp := hl.2 p (List.mem_cons_self _ _)
    have hpl := (List.pairwise_cons.1 hl.1).1
    have hl1 : Sep l := ⟨(List.pairwise_cons.1 hl.1).2, fun q hq => hl.2 q (List.mem_cons_of_mem _ hq)⟩
    have hinkl1 : ∀ q ∈ l, HasInk region.img q := fun q hq => hinkl q (List.mem_cons_of_mem _ hq)
    -- the boxes that replace `p` lie inside the column range of `p`
    have key : ∀ w : List Patch, ReCutPost region.img p w →
        Sep (acc ++ w) ∧ (∀ a ∈ acc ++ w, HasInk region.img a) ∧
          ∀ a ∈ acc ++ w, ∀ q ∈ l, a.end_ ≤ q.start := by
      intro w hw
      refine ⟨⟨?_, ?_⟩, ?_, ?_⟩
      · rw [List.pairwise_append]
        refine ⟨hacc.1, hw.1.1, fun a ha b hb => ?_⟩
        have h1 := hcross a ha p (List.mem_cons_self _ _)
        have h2 := (hw.2 b hb).1
        omega
      · intro a ha
        rcases List.mem_append.1 ha with ha | ha
        · exact hacc.2 a ha
        · exact hw.1.2 a ha
      · intro a ha
        rcases List.mem_append.1 ha with ha | ha
        · exact hinka a ha
        · exact (hw.2 a ha).2.2
      · intro a ha q hq
        rcases List.mem_append.1 ha with ha | ha
        · exact hcross a ha q (List.mem_cons_of_mem _ hq)
        · have h1 := (hw.2 a ha).2.1
          have h2 := hpl q hq
          omega
    split_ifs with hw
    · obtain ⟨k1, k2, k3⟩ := key _ (doReCut_post u region p 1 (le_refl _) hp
        (hinkl p (List.mem_cons_self _ _)))
      exact ih _ hl1 hinkl1 k1 k2 k3
    · obtain ⟨k1, k2, k3⟩ := key [p] ⟨⟨List.pairwise_singleton _ _, fun b hb => by
          rw [List.mem_singleton.1 hb]; exact hp⟩, fun b hb => by
          rw [List.mem_singleton.1 hb]
          exact ⟨le_refl _, le_refl _, hinkl p (List.mem_cons_self _ _)⟩⟩
      exact ih _ hl1 hinkl1 k1 k2 k3

theorem reCut_img (u : Int × Int) (region : Region) : (reCut u region).img = region.img := by
  unfold reCut
  exact (findHeights_patches _).2

/-- On boxes in column order, separated and holding ink, `reCut` returns boxes in column
order, separated, holding ink and with `top < bottom`. -/
theorem reCut_good (u : Int × Int) (region : Region) (hsep : Sep region.patches)
    (hink : ∀ p ∈ region.patches, HasInk region.img p) :
    Sep (reCut u region).patches ∧
      ∀ p ∈ (reCut u region).patches, HasInk region.img p ∧ p.top < p.bottom := by
  obtain ⟨h1, h2⟩ := reCutLoop_good u region region.patches [] hsep hink
    ⟨List.Pairwise.nil, fun p hp => by simp at hp⟩ (fun p hp => by simp at hp)
    (fun p hp => by simp at hp)
  unfold reCut
  rw [(findHeights_patches _).1]
  exact map_findHeight_good region.img _ h1 h2


/-! ## Facts about `merge` -/

theorem markHanzi_geom (p : Patch) (s : Int) :
    (markHanzi p s).start = p.start ∧ (markHanzi p s).end_ = p.end_ ∧
      (markHanzi p s).top = p.top ∧ (markHanzi p s).bottom = p.bottom := by
  unfold markHanzi; split_ifs <;> simp

/-- One iteration of the loop of `merge` pushes one patch `b` and advances the index by the
number `k` of input patches that `b` covers. -/
theorem mergeStep_cases (region : Region) (i : Nat) (acc : List Patch) :
    ∃ k b, 1 ≤ k ∧ (i + 1 < region.patches.length → i + k ≤ region.patches.length) ∧
      mergeStep region i acc = (i + k, acc ++ [b]) ∧
      b.start = (region.patches.getD i default).start ∧
      b.end_ = (region.patches.getD (i + k - 1) default).end_ ∧
      b.top ≤ (region.patches.getD i default).top ∧
      (region.patches.getD i default).bottom ≤ b.bottom := by
  unfold mergeStep
  simp only []
  split_ifs with h1 h2 h3
  · exact ⟨3, _, by omega, fun _ => by omega, rfl, rfl, rfl, by simp, by simp⟩
  · exact ⟨4, _, by omega, fun _ => by omega, rfl, rfl, rfl, by simp, by simp⟩
  · exact ⟨1, _, by omega, fun h => by omega, rfl, (markHanzi_geom _ _).1,
      (markHanzi_geom _ _).2.1, le_of_eq (markHanzi_geom _ _).2.2.1,
      le_of_eq (markHanzi_geom _ _).2.2.2.symm⟩
  · exact ⟨2, _, by omega, fun h => by omega, rfl, rfl, rfl, by simp, by simp⟩

/-- Induction principle of the loop of `merge`: a property of `(i, newPatches)` kept by every
iteration run under the loop guard holds when the loop stops. -/
theorem mergeLoop_induct (region : Region) (P : Nat → List Patch → Prop)
    (hstep : ∀ i acc, i + 1 < region.patches.length → P i acc →
      P (mergeStep region i acc).1 (mergeStep region i acc).2) :
    ∀ fuel i acc, P i acc →
      P (mergeLoop region fuel i acc).1 (mergeLoop region fuel i acc).2 := by
  intro fuel
  induction fuel with
  | zero => intro i acc h; simpa [mergeLoop] using h
  | succ n ih =>
    intro i acc h
    unfold mergeLoop
    split_ifs with hg
    · exact ih _ _ (hstep i acc (by omega) h)
    · exact h

/-- The loop of `merge` leaves through its guard: with `len - i` iterations allowed, the index
it stops at is no longer below `len - 1`. -/
theorem mergeLoop_exit (region : Region) :
    ∀ fuel i acc, region.patches.length ≤ i + fuel →
      ¬ (((mergeLoop region fuel i acc).1 : Int) < (region.patches.length : Int) - 1) := by
  intro fuel
  induction fuel with
  | zero => intro i acc h; simp only [mergeLoop]; omega
  | succ n ih =>
    intro i acc h
    unfold mergeLoop
    split_ifs with hg
    · obtain ⟨k, b, hk, _, he, _⟩ := mergeStep_cases region i acc
      rw [he]
      exact ih _ _ (by simp only; omega)
    · exact hg

theorem mergeLoop_length (region : Region) (fuel : Nat) :
    (mergeLoop region fuel 0 []).2.length ≤ (mergeLoop region fuel 0 []).1 ∧
      (mergeLoop region fuel 0 []).1 ≤ region.patches.length := by
  refine mergeLoop_induct region (fun i acc => acc.length ≤ i ∧ i ≤ region.patches.length)
    ?_ fuel 0 [] ⟨by simp, Nat.zero_le _⟩
  intro i acc hi ⟨h1, _⟩
  obtain ⟨k, b, hk, hle, he, _⟩ := mergeStep_cases region i acc
  rw [he]
  refine ⟨?_, hle hi⟩
  simp only [List.length_append, List.length_singleton]
  omega

/-- C4. For every region (any box sequence, the empty one included, and any `meanHeight`),
`merge` returns at most as many boxes as it was given. -/
theorem merge_length_le (region : Region) :
    (merge region).patches.length ≤ region.patches.length := by
  obtain ⟨h1, h2⟩ := mergeLoop_length region region.patches.length
  unfold merge
  simp only []
  split_ifs with h
  · simp only [List.length_append, List.length_singleton]
    omega
  · omega

/-- C5. When the box sequence is exactly three boxes `a, b, c` whose bounding union passes
`validChinesePatch` against `meanHeight`, `merge` leaves exactly one box: that union, typed
`HANZI`. -/
theorem merge_three (region : Region) (a b c : Patch) (hp : region.patches = [a, b, c])
    (hv : validChinesePatch (union3 a b c) region.meanHeight = true) :
    (merge region).patches = [union3 a b c] := by
  unfold union3 at hv
  simp [merge, mergeLoop, mergeStep, hp, hv, union3]

theorem merge_three_witness :
    (merge threeParts).patches = [⟨2, 22, 2, 22, PatchType.HANZI⟩] :=
  merge_three threeParts _ _ _ rfl (by decide)

/-- C6, as stated, fails on `similarPair`: the two boxes are similar, each is lower than 90%
of `meanHeight`, and `merge` fuses them into one box. -/
theorem merge_similar_counterexample :
    similarPair.patches = [⟨0, 5, 0, 9, PatchType.NOTYPE⟩, ⟨5, 10, 0, 9, PatchType.NOTYPE⟩] ∧
      isSimilar ⟨0, 5, 0, 9, PatchType.NOTYPE⟩ ⟨5, 10, 0, 9, PatchType.NOTYPE⟩ = true ∧
      (10 * (9 - 0) < 9 * similarPair.meanHeight) ∧
      (merge similarPair).patches = [⟨0, 10, 0, 9, PatchType.HANZI⟩] := by
  decide

/-- C6, amended. When the box sequence is exactly two boxes `a, b` that `isSimilar` judges
similar and whose heights are both below `meanHeight * 9 / 10` (integer arithmetic), `merge`
does not fuse them: it returns two boxes with the column and row ranges of `a` and `b`. -/
theorem merge_similar_veto (region : Region) (a b : Patch) (hp : region.patches = [a, b])
    (hs : isSimilar a b = true)
    (ha : a.bottom - a.top < Int.tdiv (region.meanHeight * 9) 10)
    (hb : b.bottom - b.top < Int.tdiv (region.meanHeight * 9) 10) :
    (merge region).patches.map Patch.geom = [a.geom, b.geom] := by
  have hc : canMerge region 0 = false := by
    simp [canMerge, hp, hs, ha, hb]
  simp [merge, mergeLoop, mergeStep, hp, hc, Patch.geom, markHanzi_geom]

theorem merge_similar_veto_witness :
    (merge similarPairVeto).patches.map Patch.geom = [(0, 5, 0, 9), (5, 10, 0, 9)] :=
  merge_similar_veto similarPairVeto _ _ rfl (by decide) (by decide) (by decide)


/-! ## Invariants of `merge` -/

theorem getD_mem (l : List Patch) (i : Nat) (h : i < l.length) : l.getD i default ∈ l := by
  rw [List.getD_eq_getElem l default h]
  exact List.getElem_mem h

theorem getD_pairwise (l : List Patch) (hpw : l.Pairwise (fun a b => a.end_ ≤ b.start))
    (i j : Nat) (hij : i < j) (hj : j < l.length) :
    (l.getD i default).end_ ≤ (l.getD j default).start := by
  rw [List.getD_eq_getElem l default (by omega : i < l.length), List.getD_eq_getElem l default hj]
  exact List.pairwise_iff_getElem.1 hpw i j (by omega) hj hij

theorem MergeInv_push (region : Region) (hsep : Sep region.patches) (htall : Tall region.patches)
    (i k : Nat) (acc : List Patch) (b : Patch) (hk : 1 ≤ k) (hik : i + k ≤ region.patches.length)
    (hs : b.start = (region.patches.getD i default).start)
    (he : b.end_ = (region.patches.getD (i + k - 1) default).end_)
    (ht : b.top ≤ (region.patches.getD i default).top)
    (hb : (region.patches.getD i default).bottom ≤ b.bottom)
    (h : MergeInv region i acc) : MergeInv region (i + k) (acc ++ [b]) := by
  obtain ⟨hpw, hall, hcross⟩ := h
  have hi : i < region.patches.length := by omega
  have hmi := getD_mem region.patches i hi
  have hml := getD_mem region.patches (i + k - 1) (by omega)
  have hse : (region.patches.getD i default).end_
      ≤ (region.patches.getD (i + k - 1) default).end_ := by
    by_cases hk1 : k = 1
    · rw [hk1]; exact le_of_eq rfl
    · have h1 := getD_pairwise region.patches hsep.1 i (i + k - 1) (by omega) (by omega)
      have h2 := hsep.2 _ hml
      omega
  refine ⟨?_, fun a ha => ?_, fun a ha m hm hml => ?_⟩
  · rw [List.pairwise_append]
    refine ⟨hpw, List.pairwise_singleton _ _, fun a ha c hc => ?_⟩
    rw [List.mem_singleton.1 hc, hs]
    exact hcross a ha i (le_refl _) hi
  · rcases List.mem_append.1 ha with ha | ha
    · exact hall a ha
    · rw [List.mem_singleton.1 ha]
      have h1 := hsep.2 _ hmi
      have h2 := htall _ hmi
      exact ⟨by omega, by omega⟩
  · rcases List.mem_append.1 ha with ha | ha
    · exact hcross a ha m (by omega) hml
    · rw [List.mem_singleton.1 ha, he]
      exact getD_pairwise region.patches hsep.1 (i + k - 1) m (by omega) hml

/-- On boxes in column order, separated and with `top < bottom`, `merge` returns boxes in
column order, separated and with `top < bottom`. -/
theorem merge_good (region : Region) (hsep : Sep region.patches) (htall : Tall region.patches) :
    Sep (merge region).patches ∧ Tall (merge region).patches := by
  have hloop : MergeInv region (mergeLoop region region.patches.length 0 []).1
      (mergeLoop region region.patches.length 0 []).2 := by
    refine mergeLoop_induct region (MergeInv region) ?_ _ 0 []
      ⟨List.Pairwise.nil, fun b hb => by simp at hb, fun b hb => by simp at hb⟩
    intro i acc hi h
    obtain ⟨k, b, hk, hle, he, h1, h2, h3, h4⟩ := mergeStep_cases region i acc
    rw [he]
    exact MergeInv_push region hsep htall i k acc b hk (hle hi) h1 h2 h3 h4 h
  unfold merge
  simp only []
  split_ifs with hc
  · have hi : (mergeLoop region region.patches.length 0 []).1 + 1 = region.patches.length := by
      omega
    have := MergeInv_push region hsep htall _ 1 _
      (markHanzi (region.patches.getD (mergeLoop region region.patches.length 0 []).1 default)
        region.meanHeight) (le_refl _) (by omega) (markHanzi_geom _ _).1 (markHanzi_geom _ _).2.1
      (le_of_eq (markHanzi_geom _ _).2.2.1) (le_of_eq (markHanzi_geom _ _).2.2.2.symm) hloop
    exact ⟨⟨this.1, fun b hb => (this.2.1 b hb).1⟩, fun b hb => (this.2.1 b hb).2⟩
  · exact ⟨⟨hloop.1, fun b hb => (hloop.2.1 b hb).1⟩, fun b hb => (hloop.2.1 b hb).2⟩


/-! ## The pipeline on concrete lines -/

set_option maxRecDepth 100000 in
/-- C7 fails on `barLine`. `cut` returns the bar as one box, of width `21 = 3 * meanHeight`,
each of whose columns holds 8 ink samples; `reCut` returns no box at all. -/
theorem reCut_drops_bar :
    (cut (0, 0) barLine).patches = [⟨1, 22, 1, 8, PatchType.NOTYPE⟩] ∧
      (cut (0, 0) barLine).meanHeight = 7 ∧
      (∀ j ∈ intRange 1 22, colWhiteCount barLine j = 8) ∧
      (reCut (0, 0) (cut (0, 0) barLine)).patches = [] := by
  decide

set_option maxRecDepth 100000 in
/-- C10 fails on `strokesLine`. `merge` fuses the three boxes into one and leaves the means
at 20 and 26, the values from before the merge; computed on the merged sequence they are
19 and 20. -/
theorem merge_keeps_stale_means :
    (reCut (0, 0) (cut (0, 0) strokesLine)).patches.map Patch.geom
        = [(2, 8, 2, 21), (10, 15, 2, 21), (17, 22, 2, 21)] ∧
      (reCut (0, 0) (cut (0, 0) strokesLine)).meanHeight = 20 ∧
      (reCut (0, 0) (cut (0, 0) strokesLine)).meanWidth = 26 ∧
      (merge (reCut (0, 0) (cut (0, 0) strokesLine))).patches
        = [⟨2, 22, 2, 21, PatchType.HANZI⟩] ∧
      (merge (reCut (0, 0) (cut (0, 0) strokesLine))).meanHeight = 20 ∧
      (merge (reCut (0, 0) (cut (0, 0) strokesLine))).meanWidth = 26 ∧
      (findMeanHeightWidthForRegion
        (merge (reCut (0, 0) (cut (0, 0) strokesLine)))).meanHeight = 19 ∧
      (findMeanHeightWidthForRegion
        (merge (reCut (0, 0) (cut (0, 0) strokesLine)))).meanWidth = 20 := by
  decide

set_option maxRecDepth 100000 in
/-- C1, as stated, fails on `twoBlocks`: `cut` returns two boxes whose `end` is the last ink
column of each block, 24 and 59, not 25 and 60. -/
theorem cut_twoBlocks_counterexample :
    (cut (0, 0) twoBlocks).patches.map (fun p => (p.start, p.end_)) = [(5, 24), (40, 59)] ∧
      (cut (0, 0) twoBlocks).patches.map (fun p => (p.start, p.end_)) ≠ [(5, 25), (40, 60)] := by
  decide


/-! ## The pipeline `cut`, `reCut`, `merge` -/

theorem Sep.ascending {l : List Patch} (h : Sep l) : Ascending l := by
  intro i hi
  have h1 := h.2 _ (getD_mem l i (by omega))
  have h2 := getD_pairwise l h.1 i (i + 1) (by omega) hi
  omega

/-- After each stage of the pipeline run from a bitmap the boxes are in column order,
separated, and each has `top < bottom`. -/
theorem pipeline_good (u v : Int × Int) (img : Mat) :
    (Sep (cut u img).patches ∧ Tall (cut u img).patches) ∧
      (Sep (reCut v (cut u img)).patches ∧ Tall (reCut v (cut u img)).patches) ∧
      (Sep (merge (reCut v (cut u img))).patches ∧
        Tall (merge (reCut v (cut u img))).patches) := by
  obtain ⟨c1, c2⟩ := cut_good u img
  have himg := (cut_patches u img).2
  obtain ⟨r1, r2⟩ := reCut_good v (cut u img) c1 (fun p hp => by rw [himg]; exact (c2 p hp).1)
  have rt : Tall (reCut v (cut u img)).patches := fun p hp => (r2 p hp).2
  exact ⟨⟨c1, fun p hp => (c2 p hp).2⟩, ⟨r1, rt⟩, merge_good _ r1 rt⟩

/-- C2. For every bitmap the box sequence is strictly ascending in `start` after each stage
of the pipeline run from it: after `cut`, after `reCut` of that result, and after `merge` of
that result, `boxes[i].start < boxes[i + 1].start` for all adjacent pairs. -/
theorem pipeline_ascending (u v : Int × Int) (img : Mat) :
    Ascending (cut u img).patches ∧ Ascending (reCut v (cut u img)).patches ∧
      Ascending (merge (reCut v (cut u img))).patches := by
  obtain ⟨h1, h2, h3⟩ := pipeline_good u v img
  exact ⟨h1.1.ascending, h2.1.ascending, h3.1.ascending⟩

/-- C3. For every bitmap every box of the sequence after `cut`, after `reCut` and after
`merge` (the pipeline run from that bitmap) has `end > start` and `bottom > top`. -/
theorem pipeline_nondegenerate (u v : Int × Int) (img : Mat) :
    NonDegenerate (cut u img).patches ∧ NonDegenerate (reCut v (cut u img)).patches ∧
      NonDegenerate (merge (reCut v (cut u img))).patches := by
  obtain ⟨h1, h2, h3⟩ := pipeline_good u v img
  exact ⟨fun p hp => ⟨h1.1.2 p hp, h1.2 p hp⟩, fun p hp => ⟨h2.1.2 p hp, h2.2 p hp⟩,
    fun p hp => ⟨h3.1.2 p hp, h3.2 p hp⟩⟩



/-! ## The two-block line -/

/-- The scan of `cut` reads the column counts only through the tests `= 0` and `> 0`. -/
theorem cutStep_congr (u : Int × Int) (wc g : Int → Int) (n : Nat)
    (h0 : wc (n : Int) = 0 ↔ g (n : Int) = 0) (h0p : wc (n : Int) > 0 ↔ g (n : Int) > 0)
    (h1 : wc ((n : Int) + 1) = 0 ↔ g ((n : Int) + 1) = 0)
    (h1p : wc ((n : Int) + 1) > 0 ↔ g ((n : Int) + 1) > 0) (st : Int × Int × List Patch) :
    cutStep u wc st n = cutStep u g st n := by
  unfold cutStep
  simp only [h0, h0p, h1, h1p]

theorem cutLoop_twoBlockProfile_tail (u : Int × Int) (m : Nat) :
    (List.range (60 + m)).foldl (cutStep u twoBlockProfile) (0, 0, [])
      = (List.range 60).foldl (cutStep u twoBlockProfile) (0, 0, []) := by
  induction m with
  | zero => rfl
  | succ m ih =>
    rw [← Nat.add_assoc, List.range_succ, List.foldl_append, ih]
    simp only [List.foldl_cons, List.foldl_nil]
    have e0 : twoBlockProfile ((60 + m : Nat) : Int) = 0 := by
      unfold twoBlockProfile; rw [if_neg]; push_cast; omega
    have e1 : twoBlockProfile (((60 + m : Nat) : Int) + 1) = 0 := by
      unfold twoBlockProfile; rw [if_neg]; push_cast; omega
    unfold cutStep
    simp only [e0, e1]
    simp

theorem cutLoop_twoBlockProfile (u : Int × Int) :
    ((List.range 60).foldl (cutStep u twoBlockProfile) (0, 0, [])).2.2
      = [Patch.mk3 u 5 24 PatchType.NOTYPE, Patch.mk3 u 40 59 PatchType.NOTYPE] := by
  rfl

/-- C1, amended. For a bitmap wider than 60 columns whose only ink is two blocks of 20 by 20
on the columns `[5, 25)` and `[40, 60)`, `cut` returns exactly 2 boxes: the first with start 5
and end 24, the second with start 40 and end 59 (`end` is the last ink column of the block). -/
theorem cut_two_blocks (u : Int × Int) (img : Mat) (r1 r2 : Nat) (hc : 60 < img.cols)
    (h1 : r1 + 20 ≤ img.rows) (h2 : r2 + 20 ≤ img.rows)
    (hink : ∀ i j : Nat, i < img.rows → j < img.cols →
      (img.px (i : Int) (j : Int) ≠ 255 ↔
        (r1 ≤ i ∧ i < r1 + 20 ∧ 5 ≤ j ∧ j < 25) ∨ (r2 ≤ i ∧ i < r2 + 20 ∧ 40 ≤ j ∧ j < 60))) :
    (cut u img).patches.map (fun p => (p.start, p.end_)) = [(5, 24), (40, 59)] := by
  -- the column counts have the two-block profile
  have hpos : ∀ j : Nat, j < img.cols →
      (0 < colWhiteCount img (j : Int) ↔ 0 < twoBlockProfile (j : Int)) := by
    intro j hj
    rw [colWhiteCount_pos_iff]
    unfold twoBlockProfile
    constructor
    · rintro ⟨i, hi, hone⟩
      have := (hink i j hi hj).1 ((img.ink_eq_one_iff _ _).1 hone)
      rw [if_pos (by omega)]
      exact Int.zero_lt_one
    · intro h
      split_ifs at h with hcol
      · rcases hcol with hcol | hcol
        · exact ⟨r1, by omega, (img.ink_eq_one_iff _ _).2
            ((hink r1 j (by omega) hj).2 (Or.inl (by omega)))⟩
        · exact ⟨r2, by omega, (img.ink_eq_one_iff _ _).2
            ((hink r2 j (by omega) hj).2 (Or.inr (by omega)))⟩
      · omega
  have hg : ∀ j : Int, 0 ≤ twoBlockProfile j := by
    intro j; unfold twoBlockProfile; split_ifs <;> omega
  have hzero : ∀ j : Nat, j < img.cols →
      (colWhiteCount img (j : Int) = 0 ↔ twoBlockProfile (j : Int) = 0) := by
    intro j hj
    have a := colWhiteCount_nonneg img (j : Int)
    have b := hg (j : Int)
    have c := hpos j hj
    omega
  have hfold : (List.range (img.cols - 1)).foldl (cutStep u (colWhiteCount img)) (0, 0, [])
      = (List.range (img.cols - 1)).foldl (cutStep u twoBlockProfile) (0, 0, []) := by
    apply List.foldl_ext
    intro st n hn
    have hn1 : n + 1 < img.cols := by have := List.mem_range.1 hn; omega
    have hcast : ((n : Int) + 1) = ((n + 1 : Nat) : Int) := by push_cast; rfl
    apply cutStep_congr
    · exact hzero n (by omega)
    · exact hpos n (by omega)
    · rw [hcast]; exact hzero (n + 1) hn1
    · rw [hcast]; exact hpos (n + 1) hn1
  rw [(cut_patches u img).1, hfold, show img.cols - 1 = 60 + (img.cols - 61) by omega,
    cutLoop_twoBlockProfile_tail, cutLoop_twoBlockProfile]
  simp only [List.map_cons, List.map_nil, (findHeightForPatch_cols img _).1,
    (findHeightForPatch_cols img _).2.1]
  rfl

theorem cut_two_blocks_witness :
    (cut (3, 7) twoBlocks).patches.map (fun p => (p.start, p.end_)) = [(5, 24), (40, 59)] :=
  cut_two_blocks (3, 7) twoBlocks 0 0 (by decide) (by decide) (by decide) (by
    intro i j hi hj
    have hi : i < 20 := hi
    have hj : j < 61 := hj
    unfold Mat.px twoBlocks
    simp only []
    split_ifs with h
    · constructor
      · intro _; omega
      · intro _; decide
    · constructor
      · intro hne; exact absurd rfl hne
      · intro hh; omega)

/-! ## Blank lines and the rows of a box -/

/-- A bitmap with no ink in the columns below `n`: the scan of `cut` pushes no box in its
first `n` iterations. -/
theorem cutLoop_blank (u : Int × Int) (wc : Int → Int) (n : Nat)
    (h : ∀ k : Nat, k < n → wc (k : Int) = 0) :
    ((List.range n).foldl (cutStep u wc) (0, 0, [])).2.2 = [] := by
  induction n with
  | zero => rfl
  | succ n ih =>
    rw [List.range_succ, List.foldl_append]
    simp only [List.foldl_cons, List.foldl_nil]
    have h0 := h n (Nat.lt_succ_self n)
    have hf : ¬ (wc (n : Int) > 0 ∧ wc ((n : Int) + 1) = 0) := by omega
    unfold cutStep
    simp only []
    rw [if_neg hf]
    exact ih (fun k hk => h k (Nat.lt_succ_of_lt hk))

/-- C16. For every bitmap in which every sample is background (255), of any width and
height, `cut` returns an empty box sequence. -/
theorem cut_blank (u : Int × Int) (img : Mat)
    (h : ∀ i j : Nat, i < img.rows → j < img.cols → img.px (i : Int) (j : Int) = 255) :
    (cut u img).patches = [] := by
  rw [(cut_patches u img).1, cutLoop_blank u (colWhiteCount img) (img.cols - 1)]
  · rfl
  · intro k hk
    have h0 := colWhiteCount_nonneg img (k : Int)
    by_contra hne
    have hpos : 0 < colWhiteCount img (k : Int) := by omega
    obtain ⟨i, hi, hone⟩ := (colWhiteCount_pos_iff img (k : Int)).1 hpos
    exact (img.ink_eq_one_iff _ _).1 hone (h i k hi (by omega))

theorem cut_blank_witness : (cut (0, 0) blankLine).patches = [] :=
  cut_blank (0, 0) blankLine (fun _ _ _ _ => rfl)


theorem find_range_first (P : Nat → Bool) (n a : Nat)
    (ha : (List.range n).find? P = some a) :
    a < n ∧ P a = true ∧ ∀ i, i < a → P i = false := by
  have han : a < n := List.mem_range.1 (List.mem_of_find?_eq_some ha)
  refine ⟨han, List.find?_some ha, fun i hi => ?_⟩
  obtain ⟨_, as, bs, hsplit, hneg⟩ := List.find?_eq_some.1 ha
  have hpw : (as ++ a :: bs).Pairwise (· < ·) := hsplit ▸ List.pairwise_lt_range n
  have hin : i ∈ as ++ a :: bs := hsplit ▸ List.mem_range.2 (by omega)
  rcases List.mem_append.1 hin with h | h
  · simpa using hneg i h
  · rcases List.mem_cons.1 h with h | h
    · omega
    · have := (List.pairwise_cons.1 (List.pairwise_append.1 hpw).2.1).1 i h
      omega

theorem find_range_last (P : Nat → Bool) (n b : Nat)
    (hb : (List.range n).reverse.find? P = some b) :
    b < n ∧ P b = true ∧ ∀ i, b < i → i < n → P i = false := by
  have hbn : b < n := List.mem_range.1 (List.mem_reverse.1 (List.mem_of_find?_eq_some hb))
  refine ⟨hbn, List.find?_some hb, fun i hi hin => ?_⟩
  obtain ⟨_, as, bs, hsplit, hneg⟩ := List.find?_eq_some.1 hb
  have hpw : (as ++ b :: bs).Pairwise (· > ·) := by
    rw [← hsplit, List.pairwise_reverse]
    exact List.pairwise_lt_range n
  have hmem : i ∈ as ++ b :: bs := hsplit ▸ List.mem_reverse.2 (List.mem_range.2 hin)
  rcases List.mem_append.1 hmem with h | h
  · simpa using hneg i h
  · rcases List.mem_cons.1 h with h | h
    · omega
    · have := (List.pairwise_cons.1 (List.pairwise_append.1 hpw).2.1).1 i h
      omega

/-- C18. For every bitmap and every box whose column range `[start, end)` holds ink,
`findHeightForPatch` sets `top` to the smallest row index `t` with ink in those columns and
`bottom` to the largest such row index `b`, or to `t + 1` when `b = t`; `start`, `end` and
the type are unchanged. -/
theorem findHeightForPatch_spec (img : Mat) (p : Patch) (h : HasInk img p) :
    ∃ t b : Nat, t < img.rows ∧ b < img.rows ∧
      RowHasInk img p t ∧ (∀ i, i < img.rows → RowHasInk img p i → t ≤ i) ∧
      RowHasInk img p b ∧ (∀ i, i < img.rows → RowHasInk img p i → i ≤ b) ∧
      (findHeightForPatch img p).top = (t : Int) ∧
      (findHeightForPatch img p).bottom = (if b = t then (t : Int) + 1 else (b : Int)) ∧
      (findHeightForPatch img p).start = p.start ∧
      (findHeightForPatch img p).end_ = p.end_ ∧
      (findHeightForPatch img p).ptype = p.ptype := by
  obtain ⟨i0, hi0, hj0⟩ := h
  have hiff : ∀ k : Nat,
      (fun (k : Nat) => decide (rowWhiteCount img (k : Int) p.start p.end_ ≥ 1)) k = true ↔
        RowHasInk img p k := by
    intro k
    simp only [decide_eq_true_eq]
    exact rowWhiteCount_ge_one_iff img k p.start p.end_
  have hP := (hiff i0).2 hj0
  obtain ⟨a, ha⟩ := Option.isSome_iff_exists.1
    (List.find?_isSome.2 ⟨i0, List.mem_range.2 hi0, hP⟩ :
      ((List.range img.rows).find?
        (fun (k : Nat) => decide (rowWhiteCount img (k : Int) p.start p.end_ ≥ 1))).isSome)
  obtain ⟨b, hb⟩ := Option.isSome_iff_exists.1
    (List.find?_isSome.2 ⟨i0, List.mem_reverse.2 (List.mem_range.2 hi0), hP⟩ :
      ((List.range img.rows).reverse.find?
        (fun (k : Nat) => decide (rowWhiteCount img (k : Int) p.start p.end_ ≥ 1))).isSome)
  obtain ⟨han, hPa, hmin⟩ := find_range_first _ _ a ha
  obtain ⟨hbn, hPb, hmax⟩ := find_range_last _ _ b hb
  have hab := find_range_le _ _ a b ha hb
  have hcols := findHeightForPatch_cols img p
  refine ⟨a, b, han, hbn, (hiff a).1 hPa, fun i hi hri => ?_, (hiff b).1 hPb,
    fun i hi hri => ?_, ?_, ?_, hcols.1, hcols.2.1, hcols.2.2⟩
  · by_contra hlt
    have h1 := hmin i (by omega)
    have h2 : decide (rowWhiteCount img (i : Int) p.start p.end_ ≥ 1) = true := (hiff i).2 hri
    rw [h2] at h1
    cases h1
  · by_contra hlt
    have h1 := hmax i (by omega) hi
    have h2 : decide (rowWhiteCount img (i : Int) p.start p.end_ ≥ 1) = true := (hiff i).2 hri
    rw [h2] at h1
    cases h1
  · unfold findHeightForPatch
    simp only [ha, hb]
    split_ifs <;> rfl
  · unfold findHeightForPatch
    simp only [ha, hb]
    split_ifs with h1 h2 h2
    · simp only [h2]
    · simp only [] at h1; omega
    · simp only [] at h1; omega
    · rfl

theorem findHeightForPatch_spec_witness :
    ∃ t b : Nat, t < smallBlock.rows ∧ b < smallBlock.rows ∧
      RowHasInk smallBlock ⟨1, 4, 0, 0, PatchType.NOTYPE⟩ t ∧
      (∀ i, i < smallBlock.rows → RowHasInk smallBlock ⟨1, 4, 0, 0, PatchType.NOTYPE⟩ i → t ≤ i) ∧
      RowHasInk smallBlock ⟨1, 4, 0, 0, PatchType.NOTYPE⟩ b ∧
      (∀ i, i < smallBlock.rows → RowHasInk smallBlock ⟨1, 4, 0, 0, PatchType.NOTYPE⟩ i → i ≤ b) ∧
      (findHeightForPatch smallBlock ⟨1, 4, 0, 0, PatchType.NOTYPE⟩).top = (t : Int) ∧
      (findHeightForPatch smallBlock ⟨1, 4, 0, 0, PatchType.NOTYPE⟩).bottom
        = (if b = t then (t : Int) + 1 else (b : Int)) ∧
      (findHeightForPatch smallBlock ⟨1, 4, 0, 0, PatchType.NOTYPE⟩).start = 1 ∧
      (findHeightForPatch smallBlock ⟨1, 4, 0, 0, PatchType.NOTYPE⟩).end_ = 4 ∧
      (findHeightForPatch smallBlock ⟨1, 4, 0, 0, PatchType.NOTYPE⟩).ptype = PatchType.NOTYPE :=
  findHeightForPatch_spec smallBlock ⟨1, 4, 0, 0, PatchType.NOTYPE⟩
    ⟨2, by decide, 1, by decide, by decide, by decide⟩


/-! ## Runs of ink columns in `cut` -/

theorem cutLoop_succ (u : Int × Int) (wc : Int → Int) (n : Nat) :
    cutLoop u wc (n + 1) = cutStep u wc (cutLoop u wc n) n := by
  unfold cutLoop
  rw [List.range_succ, List.foldl_append]
  rfl

/-- Inside a run of ink columns that starts at `a` after a blank column, the scan keeps
`start = a` and pushes nothing. -/
theorem cutLoop_in_run (u : Int × Int) (wc : Int → Int) (a b : Nat) (ha : 1 ≤ a)
    (hblank : wc ((a : Int) - 1) = 0) (hrun : ∀ j : Nat, j < b + 1 → a ≤ j → 0 < wc (j : Int)) :
    ∀ n, a ≤ n → n ≤ b →
      (cutLoop u wc n).1 = (a : Int) ∧ (cutLoop u wc n).2.2 = (cutLoop u wc (a - 1)).2.2 := by
  intro n han
  induction n, han using Nat.le_induction with
  | base =>
    intro hab
    obtain ⟨a1, rfl⟩ : ∃ a1, a = a1 + 1 := ⟨a - 1, by omega⟩
    have h0 : wc (a1 : Int) = 0 := by
      have : ((a1 + 1 : Nat) : Int) - 1 = (a1 : Int) := by push_cast; omega
      rw [this] at hblank; exact hblank
    have h1 : 0 < wc ((a1 : Int) + 1) := by
      have := hrun (a1 + 1) (by omega) (le_refl _)
      push_cast at this; exact this
    have hr : wc (a1 : Int) = 0 ∧ wc ((a1 : Int) + 1) > 0 := ⟨h0, h1⟩
    have hf : ¬ (wc (a1 : Int) > 0 ∧ wc ((a1 : Int) + 1) = 0) := by omega
    rw [cutLoop_succ]
    unfold cutStep
    simp only [if_pos hr, if_neg hf]
    exact ⟨by push_cast; rfl, rfl⟩
  | succ n han ih =>
    intro hnb
    obtain ⟨i1, i2⟩ := ih (by omega)
    have h0 : 0 < wc (n : Int) := hrun n (by omega) han
    have h1 : 0 < wc ((n : Int) + 1) := by
      have := hrun (n + 1) (by omega) (by omega)
      push_cast at this; exact this
    have hr : ¬ (wc (n : Int) = 0 ∧ wc ((n : Int) + 1) > 0) := by omega
    have hf : ¬ (wc (n : Int) > 0 ∧ wc ((n : Int) + 1) = 0) := by omega
    rw [cutLoop_succ]
    unfold cutStep
    simp only [if_neg hr, if_neg hf]
    exact ⟨i1, i2⟩

/-- At the blank column after the run `a, ..., b` the scan pushes the box `(a, b)` when
`b - a > 2` and nothing otherwise. -/
theorem cutLoop_run_end (u : Int × Int) (wc : Int → Int) (a b : Nat) (ha : 1 ≤ a) (hab : a ≤ b)
    (hblank : wc ((a : Int) - 1) = 0) (hend : wc ((b : Int) + 1) = 0)
    (hrun : ∀ j : Nat, j < b + 1 → a ≤ j → 0 < wc (j : Int)) :
    (cutLoop u wc (b + 1)).2.2 = (cutLoop u wc (a - 1)).2.2 ++
      (if (b : Int) - (a : Int) > 2 then [Patch.mk3 u a b PatchType.NOTYPE] else []) := by
  obtain ⟨i1, i2⟩ := cutLoop_in_run u wc a b ha hblank hrun b hab (le_refl _)
  have h0 : 0 < wc (b : Int) := hrun b (by omega) hab
  have hr : ¬ (wc (b : Int) = 0 ∧ wc ((b : Int) + 1) > 0) := by omega
  have hf : wc (b : Int) > 0 ∧ wc ((b : Int) + 1) = 0 := ⟨h0, hend⟩
  rw [cutLoop_succ]
  unfold cutStep
  simp only [if_neg hr, if_pos hf, i1, i2]
  split_ifs <;> simp

/-- After the blank column `b + 1` the scan only adds boxes that start after `b`. -/
theorem cutLoop_after (u : Int × Int) (wc : Int → Int) (hwc : ∀ j, 0 ≤ wc j) (b : Nat)
    (hend : wc ((b : Int) + 1) = 0) :
    ∀ m, b + 1 ≤ m →
      (∃ extra, (cutLoop u wc m).2.2 = (cutLoop u wc (b + 1)).2.2 ++ extra ∧
        ∀ p ∈ extra, (b : Int) < p.start) ∧
      (0 < wc (m : Int) → (b : Int) < (cutLoop u wc m).1) := by
  intro m hm
  induction m, hm using Nat.le_induction with
  | base =>
    refine ⟨⟨[], by simp, fun p hp => by simp at hp⟩, fun h => ?_⟩
    push_cast at h
    omega
  | succ m hm ih =>
    obtain ⟨⟨extra, he, hall⟩, hst⟩ := ih
    rw [cutLoop_succ]
    unfold cutStep
    simp only []
    by_cases hr : wc (m : Int) = 0 ∧ wc ((m : Int) + 1) > 0
    · have hf : ¬ (wc (m : Int) > 0 ∧ wc ((m : Int) + 1) = 0) := by omega
      simp only [if_pos hr, if_neg hf]
      exact ⟨⟨extra, he, hall⟩, fun _ => by omega⟩
    · simp only [if_neg hr]
      by_cases hf : wc (m : Int) > 0 ∧ wc ((m : Int) + 1) = 0
      · simp only [if_pos hf]
        have hs := hst hf.1
        split_ifs with hw
        · refine ⟨⟨extra ++ [Patch.mk3 u (cutLoop u wc m).1 m PatchType.NOTYPE], ?_, ?_⟩,
            fun h => ?_⟩
          · simp only []
            rw [he, List.append_assoc]
          · intro p hp
            rcases List.mem_append.1 hp with hp | hp
            · exact hall p hp
            · rw [List.mem_singleton.1 hp]; exact hs
          · push_cast at h; omega
        · exact ⟨⟨extra, he, hall⟩, fun h => by push_cast at h; omega⟩
      · simp only [if_neg hf]
        refine ⟨⟨extra, he, hall⟩, fun h => ?_⟩
        push_cast at h
        by_cases hm0 : 0 < wc (m : Int)
        · exact hst hm0
        · have := hwc (m : Int)
          exfalso; omega

/-- C13, amended. For every bitmap, a maximal run of ink columns `a, ..., b` with a blank
column on each side produces a box in the output of `cut` if and only if it is more than 3
columns wide (`b - a > 2`): runs of 1, 2 or 3 columns are discarded, every run of 4 or more
columns is kept, as the box with `start = a` and `end = b`. -/
theorem cut_run_iff (u : Int × Int) (img : Mat) (a b : Nat) (h : BlankBoundedRun img a b) :
    ((∃ p ∈ (cut u img).patches, p.start = (a : Int)) ↔ a + 3 ≤ b) ∧
      (a + 3 ≤ b → ∃ p ∈ (cut u img).patches, p.start = (a : Int) ∧ p.end_ = (b : Int)) := by
  obtain ⟨ha, hab, hb, hblank, hend, hrun⟩ := h
  have hwc := colWhiteCount_nonneg img
  have hE := cutLoop_run_end u (colWhiteCount img) a b ha hab hblank hend hrun
  obtain ⟨⟨extra, hx, hxs⟩, _⟩ := cutLoop_after u (colWhiteCount img) hwc b hend
    (img.cols - 1) (by omega)
  obtain ⟨_, hpre, _⟩ := cutLoop_inv u (colWhiteCount img) hwc (a - 1)
  have hcut : (cut u img).patches
      = ((cutLoop u (colWhiteCount img) (img.cols - 1)).2.2).map (findHeightForPatch img) :=
    (cut_patches u img).1
  have hkeep : a + 3 ≤ b →
      ∃ p ∈ (cut u img).patches, p.start = (a : Int) ∧ p.end_ = (b : Int) := by
    intro hw
    refine ⟨findHeightForPatch img (Patch.mk3 u a b PatchType.NOTYPE), ?_,
      (findHeightForPatch_cols img _).1, (findHeightForPatch_cols img _).2.1⟩
    rw [hcut, hx, hE, if_pos (by omega)]
    exact List.mem_map_of_mem _ (by simp)
  refine ⟨⟨?_, fun hw => ?_⟩, hkeep⟩
  · rintro ⟨p, hp, hpa⟩
    rw [hcut] at hp
    obtain ⟨q, hq, rfl⟩ := List.mem_map.1 hp
    rw [(findHeightForPatch_cols img q).1] at hpa
    rw [hx, hE] at hq
    rcases List.mem_append.1 hq with hq | hq
    · rcases List.mem_append.1 hq with hq | hq
      · have h2 := hpre q hq
        omega
      · split_ifs at hq with hw
        · omega
        · simp at hq
    · have := hxs q hq
      omega
  · obtain ⟨p, hp, hpa, _⟩ := hkeep hw
    exact ⟨p, hp, hpa⟩

theorem cut_run_iff_witness :
    ((∃ p ∈ (cut (0, 0) fourColumnRun).patches, p.start = ((2 : Nat) : Int)) ↔ 2 + 3 ≤ 5) ∧
      (2 + 3 ≤ 5 →
        ∃ p ∈ (cut (0, 0) fourColumnRun).patches,
          p.start = ((2 : Nat) : Int) ∧ p.end_ = ((5 : Nat) : Int)) :=
  cut_run_iff (0, 0) fourColumnRun 2 5 (by unfold BlankBoundedRun; decide)

/-- C13, as stated, fails on `threeColumnRun`: the columns 2 to 4 are a run of 3 ink columns
with a blank column on each side, and `cut` returns no box. -/
theorem cut_run_counterexample :
    BlankBoundedRun threeColumnRun 2 4 ∧ (cut (0, 0) threeColumnRun).patches = [] := by
  unfold BlankBoundedRun
  decide


/-! ## Further concrete lines -/

/-- C14 fails on `rightEdgeRun`. The columns 3 to 7 are a run of 5 ink columns after the blank
column 2, ending at the last column of the bitmap, and `cut` returns no box; the run of the
same width at the first column, in `leftEdgeRun`, gives the box `(0, 4)`. -/
theorem cut_misses_right_edge_run :
    rightEdgeRun.cols = 8 ∧ colWhiteCount rightEdgeRun 2 = 0 ∧
      (∀ j ∈ intRange 3 8, 0 < colWhiteCount rightEdgeRun j) ∧
      (cut (0, 0) rightEdgeRun).patches = [] ∧
      (cut (0, 0) leftEdgeRun).patches.map Patch.geom = [(0, 4, 0, 4)] := by
  decide

/-- C11 fails on `fourParts`. `merge` replaces the four boxes by one box with the rows 2 to
22: the rows of the first, second and fourth box; the bounding union of all four has the
rows 0 to 24 of the third box. -/
theorem merge_four_omits_third :
    (merge fourParts).patches = [⟨0, 20, 2, 22, PatchType.HANZI⟩] ∧
      fourParts.patches.map Patch.geom
        = [(0, 4, 2, 22), (5, 9, 2, 22), (10, 14, 0, 24), (15, 20, 2, 22)] := by
  decide


/-! ## The boxes returned by `doReCut` -/

/-- Invariant of the scan of `doReCut` after the iterations `0, ..., n - 1`: every box pushed
comes from a sub-run, and while the scan is inside a run, the entries after `s` reach the
threshold. -/
theorem doReCutScan_runs (u : Int × Int) (region : Region) (patch : Patch) (t : Int)
    (recur : Patch → Option (List Patch)) :
    ∀ (n : Nat), n ≤ (patch.end_ - patch.start).toNat → ∀ st : Int × List Patch,
      (List.range n).foldl (doReCutStep u region patch t recur) (some (0, [])) = some st →
      (∀ b ∈ st.2, FromSubRun u region patch t recur b) ∧ 0 ≤ st.1 ∧
      (t ≤ reCutWhiteCount region.img patch (n : Int) →
        st.1 ≤ (n : Int) ∧
        ∀ k : Int, st.1 < k → k ≤ (n : Int) → t ≤ reCutWhiteCount region.img patch k) := by
  intro n
  induction n with
  | zero =>
    intro _ st hst
    cases hst
    refine ⟨fun b hb => by simp at hb, le_refl _, fun _ => ⟨le_refl _, fun k h1 h2 => ?_⟩⟩
    simp only [] at h1
    push_cast at h2
    omega
  | succ n ih =>
    intro hn st hst
    rw [List.range_succ, List.foldl_append] at hst
    simp only [List.foldl_cons, List.foldl_nil] at hst
    cases hprev : (List.range n).foldl (doReCutStep u region patch t recur) (some (0, [])) with
    | none => rw [hprev] at hst; simp [doReCutStep] at hst
    | some st0 =>
      rw [hprev] at hst
      obtain ⟨s0, v⟩ := st0
      obtain ⟨hall, hs0, hrun⟩ := ih (by omega) (s0, v) hprev
      simp only [] at hall hs0 hrun
      unfold doReCutStep at hst
      simp only [] at hst
      by_cases hr : reCutWhiteCount region.img patch (n : Int) < t ∧
          reCutWhiteCount region.img patch ((n : Int) + 1) ≥ t
      · have hf : ¬ (reCutWhiteCount region.img patch (n : Int) ≥ t ∧
            reCutWhiteCount region.img patch ((n : Int) + 1) < t) := by omega
        simp only [if_pos hr, if_neg hf] at hst
        cases hst
        refine ⟨hall, by simp only []; omega, fun _ => ⟨by push_cast; omega, fun k h1 h2 => ?_⟩⟩
        simp only [] at h1
        push_cast at h2
        have : k = (n : Int) + 1 := by omega
        rw [this]; exact hr.2
      · simp only [if_neg hr] at hst
        by_cases hf : reCutWhiteCount region.img patch (n : Int) ≥ t ∧
            reCutWhiteCount region.img patch ((n : Int) + 1) < t
        · simp only [if_pos hf] at hst
          obtain ⟨hsn, hks⟩ := hrun hf.1
          have hsub : IsSubRun region.img patch t s0 ((n : Int) + 1) :=
            ⟨hs0, by omega, by omega, fun k h1 h2 => hks k h1 (by omega)⟩
          split_ifs at hst with hw1 hw2
          · cases hrc : recur
                (Patch.mk3 u (s0 + patch.start) ((n : Int) + 1 + patch.start) PatchType.NOTYPE) with
            | none => rw [hrc] at hst; cases hst
            | some w =>
              rw [hrc] at hst
              cases hst
              refine ⟨fun b hb => ?_, hs0, fun hc => ?_⟩
              · rcases List.mem_append.1 hb with hb | hb
                · exact hall b hb
                · exact ⟨s0, (n : Int) + 1, hsub, Or.inl ⟨hw1, w, hrc, hb⟩⟩
              · push_cast at hc; omega
          · cases hst
            refine ⟨fun b hb => ?_, hs0, fun hc => ?_⟩
            · rcases List.mem_append.1 hb with hb | hb
              · exact hall b hb
              · exact ⟨s0, (n : Int) + 1, hsub, Or.inr ⟨by omega, List.mem_singleton.1 hb⟩⟩
            · push_cast at hc; omega
          · cases hst
            exact ⟨hall, hs0, fun hc => by push_cast at hc; omega⟩
        · simp only [if_neg hf] at hst
          cases hst
          refine ⟨hall, hs0, fun hc => ?_⟩
          push_cast at hc
          have hge : t ≤ reCutWhiteCount region.img patch (n : Int) := by omega
          obtain ⟨hsn, hks⟩ := hrun hge
          refine ⟨by push_cast; omega, fun k h1 h2 => ?_⟩
          push_cast at h2
          by_cases hk : k = (n : Int) + 1
          · rw [hk]; exact hc
          · exact hks k h1 (by omega)

/-- Every box returned by a call of `doReCut` that is not at the cap comes from a sub-run of
its scan. -/
theorem doReCutFuel_runs (u : Int × Int) (region : Region) (d : Nat) (patch : Patch) (t : Int)
    (v : List Patch) (ht : ¬ t ≥ 10) (h : doReCutFuel u (d + 1) region patch t = some v) :
    ∀ b ∈ v, FromSubRun u region patch t
      (fun sub => doReCutFuel u d region sub (t + 1)) b := by
  rw [doReCutFuel_succ, if_neg ht] at h
  cases hfold : (List.range (patch.end_ - patch.start).toNat).foldl
      (doReCutStep u region patch t (fun sub => doReCutFuel u d region sub (t + 1)))
      (some (0, [])) with
  | none => rw [hfold] at h; cases h
  | some st =>
    rw [hfold] at h
    cases h
    exact (doReCutScan_runs u region patch t _ (patch.end_ - patch.start).toNat (le_refl _)
      st hfold).1

theorem doReCutFuel_within (u : Int × Int) (region : Region) :
    ∀ (depth : Nat) (t : Int) (patch : Patch) (v : List Patch), patch.start < patch.end_ →
      doReCutFuel u depth region patch t = some v →
      ∀ b ∈ v, patch.start ≤ b.start ∧ b.start < b.end_ ∧ b.end_ ≤ patch.end_ := by
  intro depth
  induction depth with
  | zero => intro t patch v _ h; simp [doReCutFuel] at h
  | succ d ih =>
    intro t patch v hlt h b hb
    by_cases ht : t ≥ 10
    · rw [doReCutFuel_succ, if_pos ht] at h
      cases h
      rw [List.mem_singleton.1 hb]
      exact ⟨le_refl _, hlt, le_refl _⟩
    · obtain ⟨s, e, ⟨h0, hse, hew, _⟩, hcase⟩ := doReCutFuel_runs u region d patch t v ht h b hb
      rcases hcase with ⟨_, w, hw, hbw⟩ | ⟨_, rfl⟩
      · obtain ⟨h1, h2, h3⟩ := ih (t + 1) _ w (by simp only [Patch.mk3]; omega) hw b hbw
        simp only [Patch.mk3] at h1 h3
        exact ⟨by omega, h2, by omega⟩
      · simp only [Patch.mk3]
        exact ⟨by omega, by omega, by omega⟩

/-- C20. For every region, every box `p` with `p.start < p.end` and every threshold `t`, each
box `b` returned by `doReCut(region, p, t)` lies within the column range of `p`:
`p.start <= b.start < b.end <= p.end`. -/
theorem doReCut_within (u : Int × Int) (region : Region) (p : Patch) (t : Int)
    (hlt : p.start < p.end_) :
    ∀ b ∈ doReCut u region p t, p.start ≤ b.start ∧ b.start < b.end_ ∧ b.end_ ≤ p.end_ := by
  obtain ⟨v, hv⟩ := doReCutFuel_total u region (10 - t).toNat t p (le_refl _)
  have h0 := hv 0
  rw [Nat.add_zero] at h0
  unfold doReCut
  rw [h0]
  exact doReCutFuel_within u region _ t p v hlt h0

set_option maxRecDepth 100000 in
theorem doReCut_within_witness :
    doReCut (0, 0) (cut (0, 0) bridgeLine) ⟨1, 20, 1, 8, PatchType.NOTYPE⟩ 1
        = [⟨1, 9, 0, 0, PatchType.NOTYPE⟩] ∧
      ∀ b ∈ doReCut (0, 0) (cut (0, 0) bridgeLine) ⟨1, 20, 1, 8, PatchType.NOTYPE⟩ 1,
        (1 : Int) ≤ b.start ∧ b.start < b.end_ ∧ b.end_ ≤ 20 :=
  ⟨by decide, doReCut_within (0, 0) (cut (0, 0) bridgeLine) ⟨1, 20, 1, 8, PatchType.NOTYPE⟩ 1
    (by decide)⟩


/-- A box returned by `doReCut` from a box whose inner columns reach `t - 1` is no wider than
`meanHeight * 5 / 4`, or its inner columns hold at least 9 ink samples each. -/
theorem doReCutFuel_narrow_or_dense (u : Int × Int) (region : Region) :
    ∀ (depth : Nat) (t : Int) (patch : Patch) (v : List Patch),
      (∀ j : Int, patch.start < j → j < patch.end_ → t - 1 ≤ colWhiteCount region.img j) →
      doReCutFuel u depth region patch t = some v →
      ∀ b ∈ v, Int.tdiv (region.meanHeight * 5) 4 < b.end_ - b.start →
        ∀ j : Int, b.start < j → j < b.end_ → 9 ≤ colWhiteCount region.img j := by
  intro depth
  induction depth with
  | zero => intro t patch v _ h; simp [doReCutFuel] at h
  | succ d ih =>
    intro t patch v hin h b hb hwide j hj1 hj2
    by_cases ht : t ≥ 10
    · rw [doReCutFuel_succ, if_pos ht] at h
      cases h
      rw [List.mem_singleton.1 hb] at hj1 hj2
      have := hin j hj1 hj2
      omega
    · obtain ⟨s, e, ⟨h0, hse, hew, hks⟩, hcase⟩ :=
        doReCutFuel_runs u region d patch t v ht h b hb
      rcases hcase with ⟨_, w, hw, hbw⟩ | ⟨hnarrow, rfl⟩
      · refine ih (t + 1) _ w (fun j' h1 h2 => ?_) hw b hbw hwide j hj1 hj2
        simp only [Patch.mk3] at h1 h2
        have hk := hks (j' - patch.start) (by omega) (by omega)
        unfold reCutWhiteCount at hk
        rw [if_pos ⟨by omega, by omega⟩] at hk
        have hj' : patch.start + (j' - patch.start) = j' := by omega
        rw [hj'] at hk
        omega
      · simp only [Patch.mk3] at hwide
        omega

/-- C19. For every region and every box, each box returned by `doReCut(region, box, 1)` has
width at most `meanHeight * 5 / 4` (integer arithmetic) unless it is a sub-run returned
unsplit at the threshold cap 10: a returned box wider than that has at least 9 ink samples
in every column strictly between its start and its end. -/
theorem doReCut_narrow_or_dense (u : Int × Int) (region : Region) (p b : Patch)
    (hb : b ∈ doReCut u region p 1)
    (hwide : Int.tdiv (region.meanHeight * 5) 4 < b.end_ - b.start) :
    ∀ j : Int, b.start < j → j < b.end_ → 9 ≤ colWhiteCount region.img j := by
  obtain ⟨v, hv⟩ := doReCutFuel_total u region (10 - (1 : Int)).toNat 1 p (le_refl _)
  have h0 := hv 0
  rw [Nat.add_zero] at h0
  unfold doReCut at hb
  rw [h0] at hb
  exact doReCutFuel_narrow_or_dense u region _ 1 p v
    (fun j _ _ => by have := colWhiteCount_nonneg region.img j; omega) h0 b hb hwide

set_option maxRecDepth 100000 in
theorem doReCut_narrow_or_dense_witness :
    (cut (0, 0) thickBar).meanHeight = 9 ∧
      ∀ j : Int, 1 < j → j < 19 → 9 ≤ colWhiteCount (cut (0, 0) thickBar).img j :=
  ⟨by decide, doReCut_narrow_or_dense (0, 0) (cut (0, 0) thickBar)
    ⟨1, 19, 1, 10, PatchType.NOTYPE⟩ ⟨1, 19, 0, 0, PatchType.NOTYPE⟩ (by decide) (by decide)⟩


/-! ## Symmetry of `isSimilar` -/

namespace Flt

theorem bitsAux_zero (fuel : Nat) : bitsAux fuel 0 = 0 := by
  cases fuel <;> simp [bitsAux]

/-- For `0 < x` the number `bits x` is the length `L` of `x` in binary:
`2 ^ L ≤ 2 * x < 2 * 2 ^ L`. -/
theorem bitsAux_spec : ∀ (fuel x : Nat), x ≤ fuel → 0 < x →
    2 ^ bitsAux fuel x ≤ 2 * x ∧ x < 2 ^ bitsAux fuel x := by
  intro fuel
  induction fuel with
  | zero => intro x h1 h2; omega
  | succ f ih =>
    intro x hx hpos
    unfold bitsAux
    rw [if_neg (by omega)]
    by_cases h2 : x / 2 = 0
    · rw [h2, bitsAux_zero]
      have : x = 1 := by omega
      subst this
      simp
    · obtain ⟨i1, i2⟩ := ih (x / 2) (by omega) (by omega)
      rw [pow_succ]
      constructor <;> omega

theorem bits_spec (x : Nat) (h : 0 < x) : 2 ^ bits x ≤ 2 * x ∧ x < 2 ^ bits x :=
  bitsAux_spec x x (le_refl _) h

/-- Two numbers with the same value up to powers of two have binary lengths that differ by
the difference of the exponents. -/
theorem bits_scale (n d a b : Nat) (hn : 0 < n) (hd : 0 < d) (h : n * 2 ^ a = d * 2 ^ b) :
    bits n + a = bits d + b := by
  obtain ⟨n1, n2⟩ := bits_spec n hn
  obtain ⟨d1, d2⟩ := bits_spec d hd
  have hA : 2 ^ (bits n + a) ≤ 2 * (n * 2 ^ a) := by
    rw [pow_add]; nlinarith [Nat.two_pow_pos a]
  have hB : n * 2 ^ a < 2 ^ (bits n + a) := by
    rw [pow_add]
    exact Nat.mul_lt_mul_of_pos_right n2 (Nat.two_pow_pos _)
  have hC : 2 ^ (bits d + b) ≤ 2 * (d * 2 ^ b) := by
    rw [pow_add]; nlinarith [Nat.two_pow_pos b]
  have hD : d * 2 ^ b < 2 ^ (bits d + b) := by
    rw [pow_add]
    exact Nat.mul_lt_mul_of_pos_right d2 (Nat.two_pow_pos _)
  rw [h] at hA hB
  have h1 : 2 ^ (bits n + a) < 2 ^ (bits d + b + 1) := by
    rw [pow_succ]; omega
  have h2 : 2 ^ (bits d + b) < 2 ^ (bits n + a + 1) := by
    rw [pow_succ]; omega
  have h3 := (Nat.pow_lt_pow_iff_right (by decide : 1 < 2)).1 h1
  have h4 := (Nat.pow_lt_pow_iff_right (by decide : 1 < 2)).1 h2
  omega

theorem scale_eq (n d a b P Q : Nat) (h : n * 2 ^ a = d * 2 ^ b) (hPQ : P + b = Q + a) :
    n * 2 ^ P = d * 2 ^ Q := by
  have h1 : n * 2 ^ P * 2 ^ b = d * 2 ^ Q * 2 ^ b := by
    calc n * 2 ^ P * 2 ^ b = n * 2 ^ (P + b) := by rw [pow_add]; ring
      _ = n * 2 ^ (Q + a) := by rw [hPQ]
      _ = n * 2 ^ a * 2 ^ Q := by rw [pow_add]; ring
      _ = d * 2 ^ b * 2 ^ Q := by rw [h]
      _ = d * 2 ^ Q * 2 ^ b := by ring
  exact Nat.eq_of_mul_eq_mul_right (Nat.two_pow_pos _) h1

/-- Rounding a quotient whose exact value is 1 gives 1, written `2 ^ 23 * 2 ^ (-23)`. -/
theorem roundPos_one (n d a b : Nat) (hn : 0 < n) (hd : 0 < d) (h : n * 2 ^ a = d * 2 ^ b) :
    roundPos 24 n d ((a : Int) - (b : Int)) = (2 ^ 23, -23) := by
  have hbits := bits_scale n d a b hn hd h
  have hk0 : ((24 : Nat) : Int) + (bits d : Int) - (bits n : Int) = 24 + (a : Int) - (b : Int) := by
    push_cast; omega
  have hq0 : n * 2 ^ (24 + (a : Int) - (b : Int)).toNat
      = d * 2 ^ (-(24 + (a : Int) - (b : Int))).toNat * 2 ^ 24 := by
    rw [mul_assoc, ← pow_add]
    exact scale_eq n d a b _ _ h (by omega)
  have hq : n * 2 ^ (24 + (a : Int) - (b : Int) - 1).toNat
      = d * 2 ^ (-(24 + (a : Int) - (b : Int) - 1)).toNat * 2 ^ 23 := by
    rw [mul_assoc, ← pow_add]
    exact scale_eq n d a b _ _ h (by omega)
  have hden0 : 0 < d * 2 ^ (-(24 + (a : Int) - (b : Int))).toNat :=
    Nat.mul_pos hd (Nat.two_pow_pos _)
  have hden : 0 < d * 2 ^ (-(24 + (a : Int) - (b : Int) - 1)).toNat :=
    Nat.mul_pos hd (Nat.two_pow_pos _)
  unfold roundPos
  simp only [hk0]
  rw [hq0, Nat.mul_div_cancel_left _ hden0, if_pos (le_refl _), hq,
    Nat.mul_div_cancel_left _ hden, Nat.mul_mod_right]
  rw [if_neg (by omega)]
  refine Prod.ext rfl ?_
  simp only []
  omega

end Flt


namespace Flt

theorem ofInt_fin (p : Nat) (x : Int) : ∃ m e, ofInt p x = fin m e := by
  unfold ofInt roundQ
  split_ifs <;> exact ⟨_, _, rfl⟩

theorem neg_iff_of_scale (m1 m2 : Int) (a b : Nat) (h : m1 * 2 ^ a = m2 * 2 ^ b) :
    (m1 < 0 ↔ m2 < 0) := by
  have ha : (0 : Int) < 2 ^ a := by positivity
  have hb : (0 : Int) < 2 ^ b := by positivity
  constructor
  · intro h1
    by_contra h2
    have : m1 * 2 ^ a < 0 := Int.mul_neg_of_neg_of_pos h1 ha
    have : 0 ≤ m2 * 2 ^ b := Int.mul_nonneg (by omega) (le_of_lt hb)
    omega
  · intro h1
    by_contra h2
    have : m2 * 2 ^ b < 0 := Int.mul_neg_of_neg_of_pos h1 hb
    have : 0 ≤ m1 * 2 ^ a := Int.mul_nonneg (by omega) (le_of_lt ha)
    omega

theorem lt_fin (m1 e1 m2 e2 : Int) :
    lt (fin m1 e1) (fin m2 e2)
      = decide (m1 * 2 ^ (e1 - min e1 e2).toNat < m2 * 2 ^ (e2 - min e1 e2).toNat) := rfl

/-- Two finite values of which neither is below the other have the same quotient in both
orders. -/
theorem div_tie (m1 e1 m2 e2 : Int) (h1 : lt (fin m1 e1) (fin m2 e2) = false)
    (h2 : lt (fin m2 e2) (fin m1 e1) = false) :
    div 24 (fin m1 e1) (fin m2 e2) = div 24 (fin m2 e2) (fin m1 e1) := by
  rw [lt_fin] at h1 h2
  rw [min_comm e2 e1] at h2
  simp only [decide_eq_false_iff_not, not_lt] at h1 h2
  have heq : m1 * 2 ^ (e1 - min e1 e2).toNat = m2 * 2 ^ (e2 - min e1 e2).toNat :=
    le_antisymm h2 h1
  have ha : (0 : Int) < 2 ^ (e1 - min e1 e2).toNat := by positivity
  have hb : (0 : Int) < 2 ^ (e2 - min e1 e2).toNat := by positivity
  have hsign := neg_iff_of_scale m1 m2 _ _ heq
  by_cases hm1 : m1 = 0
  · have hm2 : m2 = 0 := by
      rw [hm1, zero_mul] at heq
      rcases Int.mul_eq_zero.1 heq.symm with h | h
      · exact h
      · omega
    rw [hm1, hm2]
    simp [div]
  · have hm2 : m2 ≠ 0 := by
      intro h0
      rw [h0, zero_mul] at heq
      rcases Int.mul_eq_zero.1 heq with h | h
      · exact hm1 h
      · omega
    have hnat : m1.natAbs * 2 ^ (e1 - min e1 e2).toNat
        = m2.natAbs * 2 ^ (e2 - min e1 e2).toNat := by
      have := congrArg Int.natAbs heq
      simpa [Int.natAbs_mul, Int.natAbs_pow] using this
    have hexp1 : e1 - e2 = (((e1 - min e1 e2).toNat : Nat) : Int)
        - (((e2 - min e1 e2).toNat : Nat) : Int) := by
      have := min_le_left e1 e2
      have := min_le_right e1 e2
      omega
    have hexp2 : e2 - e1 = (((e2 - min e1 e2).toNat : Nat) : Int)
        - (((e1 - min e1 e2).toNat : Nat) : Int) := by omega
    have r1 := roundPos_one m1.natAbs m2.natAbs _ _ (Int.natAbs_pos.2 hm1)
      (Int.natAbs_pos.2 hm2) hnat
    have r2 := roundPos_one m2.natAbs m1.natAbs _ _ (Int.natAbs_pos.2 hm2)
      (Int.natAbs_pos.2 hm1) hnat.symm
    rw [← hexp1] at r1
    rw [← hexp2] at r2
    unfold div
    simp only [if_neg hm1, if_neg hm2]
    unfold roundQ
    simp only [r1, r2]
    by_cases hneg : m1 < 0
    · have := hsign.1 hneg
      simp [hneg, this]
    · have : ¬ m2 < 0 := fun h => hneg (hsign.2 h)
      simp [hneg, this]

theorem lt_asymm_fin (m1 e1 m2 e2 : Int) (h : lt (fin m1 e1) (fin m2 e2) = true) :
    lt (fin m2 e2) (fin m1 e1) = false := by
  rw [lt_fin] at h ⊢
  rw [min_comm e2 e1]
  simp only [decide_eq_true_eq] at h
  simp only [decide_eq_false_iff_not, not_lt]
  exact le_of_lt h

/-- The ratio "smaller over larger" of two converted `int` values does not depend on their
order. -/
theorem ratio_comm (x y : Int) :
    (if (ofInt 24 x).lt (ofInt 24 y) then div 24 (ofInt 24 x) (ofInt 24 y)
      else div 24 (ofInt 24 y) (ofInt 24 x))
    = (if (ofInt 24 y).lt (ofInt 24 x) then div 24 (ofInt 24 y) (ofInt 24 x)
      else div 24 (ofInt 24 x) (ofInt 24 y)) := by
  obtain ⟨m1, e1, hx⟩ := ofInt_fin 24 x
  obtain ⟨m2, e2, hy⟩ := ofInt_fin 24 y
  rw [hx, hy]
  cases h1 : lt (fin m1 e1) (fin m2 e2) with
  | true =>
    rw [lt_asymm_fin m1 e1 m2 e2 h1]
    simp
  | false =>
    cases h2 : lt (fin m2 e2) (fin m1 e1) with
    | true => simp
    | false =>
      simp only [Bool.false_eq_true, if_false]
      exact (div_tie m1 e1 m2 e2 h1 h2).symm

end Flt

/-- C12. For every two boxes `a` and `b`, `isSimilar(a, b) = isSimilar(b, a)`. -/
theorem isSimilar_comm (a b : Patch) : isSimilar a b = isSimilar b a := by
  unfold isSimilar
  simp only []
  rw [Flt.ratio_comm (a.end_ - a.start) (b.end_ - b.start),
    Flt.ratio_comm (a.bottom - a.top) (b.bottom - b.top)]
  have ht : (a.top - b.top).natAbs = (b.top - a.top).natAbs := by omega
  have hb : (a.bottom - b.bottom).natAbs = (b.bottom - a.bottom).natAbs := by omega
  rw [ht, hb]


/-! ## The classification pass -/

theorem findPatchTypeStep_length (sh sw : Int) (l : List Patch) (j : Nat) :
    (findPatchTypeStep sh sw l j).length = l.length := by
  unfold findPatchTypeStep
  simp only []
  split_ifs <;> simp

theorem findPatchTypeStep_other (sh sw : Int) (l : List Patch) (j k : Nat) (h : k ≠ j) :
    (findPatchTypeStep sh sw l j).getD k default = l.getD k default := by
  unfold findPatchTypeStep
  simp only []
  split_ifs
  · rfl
  · simp [List.getElem?_set_ne (Ne.symm h)]
  · rfl

theorem findPatchTypeStep_keeps (sh sw : Int) (l : List Patch) (j k : Nat)
    (h : (l.getD k default).ptype = PatchType.HANZI) :
    ((findPatchTypeStep sh sw l j).getD k default).ptype = PatchType.HANZI := by
  by_cases hk : k = j
  · subst hk
    unfold findPatchTypeStep
    simp only []
    rw [if_pos h]
    exact h
  · rw [findPatchTypeStep_other sh sw l j k hk]
    exact h

/-- The iteration at an index inside the list marks the box `HANZI` when the box passes the
shape test and a neighbour is `HANZI` at that moment. -/
theorem findPatchTypeStep_marks (sh sw : Int) (l : List Patch) (j : Nat) (hj : j < l.length)
    (hshape : shapeTest (l.getD j default) sh sw = true)
    (hnb : (l.getD (j - 1) default).ptype = PatchType.HANZI
      ∨ (l.getD (j + 1) default).ptype = PatchType.HANZI) :
    ((findPatchTypeStep sh sw l j).getD j default).ptype = PatchType.HANZI := by
  unfold shapeTest at hshape
  unfold findPatchTypeStep
  simp only []
  split_ifs with h1 h2
  · exact h1
  · simp [List.getElem?_set, hj]
  · exfalso
    apply h2
    have hn : (decide ((l.getD (j - 1) default).ptype = PatchType.HANZI)
        || decide ((l.getD (j + 1) default).ptype = PatchType.HANZI)) = true := by
      rcases hnb with h | h
      · rw [decide_eq_true h]; rfl
      · rw [decide_eq_true h]; exact Bool.or_true _
    rw [hshape, hn]
    rfl

theorem findPatchTypeLoop_length (sh sw : Int) (js : List Nat) :
    ∀ l : List Patch, (js.foldl (findPatchTypeStep sh sw) l).length = l.length := by
  induction js with
  | nil => intro l; rfl
  | cons j js ih => intro l; rw [List.foldl_cons, ih, findPatchTypeStep_length]

theorem findPatchTypeLoop_other (sh sw : Int) (js : List Nat) (k : Nat) (hk : k ∉ js) :
    ∀ l : List Patch, (js.foldl (findPatchTypeStep sh sw) l).getD k default
      = l.getD k default := by
  induction js with
  | nil => intro l; rfl
  | cons j js ih =>
    intro l
    rw [List.foldl_cons, ih (fun h => hk (List.mem_cons_of_mem _ h)),
      findPatchTypeStep_other sh sw l j k (fun h => hk (h ▸ List.mem_cons_self _ _))]

theorem findPatchTypeLoop_keeps (sh sw : Int) (js : List Nat) (k : Nat) :
    ∀ l : List Patch, (l.getD k default).ptype = PatchType.HANZI →
      ((js.foldl (findPatchTypeStep sh sw) l).getD k default).ptype = PatchType.HANZI := by
  induction js with
  | nil => intro l h; exact h
  | cons j js ih =>
    intro l h
    rw [List.foldl_cons]
    exact ih _ (findPatchTypeStep_keeps sh sw l j k h)

/-- C15, amended. For every region and every box at an interior index of the sequence
(neither the first nor the last box), whatever its type before the pass: if its width ratio
against `meanWidth` is above 0.8, or its height ratio against `meanHeight` is above 0.8 and
its width ratio above 0.5, and at least one immediate neighbour is typed `HANZI`, then its
type is `HANZI` after `findPatchType`. -/
theorem findPatchType_interior (region : Region) (index : Int) (i : Nat) (h1 : 1 ≤ i)
    (h2 : i + 1 < region.patches.length)
    (hshape : shapeTest (region.patches.getD i default) region.meanHeight region.meanWidth
      = true)
    (hnb : (region.patches.getD (i - 1) default).ptype = PatchType.HANZI
      ∨ (region.patches.getD (i + 1) default).ptype = PatchType.HANZI) :
    ((findPatchType region index).patches.getD i default).ptype = PatchType.HANZI := by
  have hsplit : List.range' 1 (region.patches.length - 2)
      = List.range' 1 (i - 1) ++ i :: List.range' (i + 1) (region.patches.length - 2 - i) := by
    have e1 : (region.patches.length - 1 - i) + (i - 1) = region.patches.length - 2 := by omega
    have e3 : 1 + 1 * (i - 1) = i := by omega
    have hA := List.range'_append 1 (i - 1) (region.patches.length - 1 - i) 1
    rw [e1, e3] at hA
    have hB : List.range' i (region.patches.length - 1 - i)
        = i :: List.range' (i + 1) (region.patches.length - 2 - i) := by
      rw [show region.patches.length - 1 - i = (region.patches.length - 2 - i) + 1 by omega,
        List.range'_succ]
    rw [← hA, hB]
  unfold findPatchType
  simp only []
  rw [hsplit, List.foldl_append, List.foldl_cons]
  have hpre_i : i ∉ List.range' 1 (i - 1) := by
    intro h; have := List.mem_range'_1.1 h; omega
  have hpre_n : i + 1 ∉ List.range' 1 (i - 1) := by
    intro h; have := List.mem_range'_1.1 h; omega
  have hsuf : i ∉ List.range' (i + 1) (region.patches.length - 2 - i) := by
    intro h; have := List.mem_range'_1.1 h; omega
  rw [findPatchTypeLoop_other _ _ _ i hsuf]
  apply findPatchTypeStep_marks
  · rw [findPatchTypeLoop_length]; omega
  · rw [findPatchTypeLoop_other _ _ _ i hpre_i]; exact hshape
  · rcases hnb with h | h
    · exact Or.inl (findPatchTypeLoop_keeps _ _ _ _ _ h)
    · right
      rw [findPatchTypeLoop_other _ _ _ (i + 1) hpre_n]; exact h

theorem findPatchType_interior_witness :
    ((findPatchType flatMiddle 0).patches.getD 1 default).ptype = PatchType.HANZI :=
  findPatchType_interior flatMiddle 0 1 (by decide) (by decide) (by decide)
    (Or.inl (by decide))

/-- C15, as stated, fails on `flatFirst`: the first box is not `HANZI`, its width ratio
against `meanWidth` is above 0.8 and its right neighbour is `HANZI`, and `findPatchType`
leaves its type `NOTYPE`. -/
theorem findPatchType_first_counterexample :
    (flatFirst.patches.getD 0 default).ptype ≠ PatchType.HANZI ∧
      shapeTest (flatFirst.patches.getD 0 default) flatFirst.meanHeight flatFirst.meanWidth
        = true ∧
      (flatFirst.patches.getD 1 default).ptype = PatchType.HANZI ∧
      ((findPatchType flatFirst 0).patches.getD 0 default).ptype = PatchType.NOTYPE := by
  decide


/-! ## The serialised record -/

theorem saveLoop_text (l : List Patch) :
    ∀ out : String,
      l.foldl (fun (out : String) (patch : Patch) =>
          out ++ toString patch.start ++ " " ++ toString patch.top ++ " "
            ++ toString patch.end_ ++ " " ++ toString patch.bottom ++ " "
            ++ toString patch.ptype.code ++ "\n") out
        = out ++ boxLines l := by
  induction l with
  | nil => intro out; simp [boxLines]
  | cons p ps ih =>
    intro out
    rw [List.foldl_cons, ih]
    simp only [boxLines, boxLine, String.append_assoc]

/-- C17. For every line index and every region, `saveRegionToFile` appends to the file exactly
this text: the decimal index and a newline, then for each box in order the line
`<start> <top> <end> <bottom> <typeCode>` (single spaces, `typeCode` the integer 0 to 4 of
the type), then one empty line; with two boxes `a, b` that is the index line, the line of
`a`, the line of `b` and the empty line. -/
theorem saveRegionToFile_text (region : Region) (index : Int) (file : String) :
    saveRegionToFile region index file
        = file ++ (toString index ++ "\n" ++ boxLines region.patches ++ "\n") ∧
      (∀ a b : Patch, boxLines [a, b] = boxLine a ++ boxLine b) ∧
      (∀ p : Patch, 0 ≤ p.ptype.code ∧ p.ptype.code ≤ 4) := by
  refine ⟨?_, fun a b => ?_, fun p => ?_⟩
  · unfold saveRegionToFile
    simp only []
    rw [saveLoop_text]
    simp only [String.append_assoc]
  · simp [boxLines]
  · cases p.ptype <;> simp [PatchType.code]

theorem saveRegionToFile_text_example :
    saveRegionToFile twoBoxRecord 3 "" = "3\n2 2 22 21 1\n25 4 30 20 2\n\n" := by
  rw [(saveRegionToFile_text twoBoxRecord 3 "").1]
  decide

end CvOCR
